import Mathlib

/-!
Verification development for the decision core of the spacetime-crawler4py
repository: `scraper.py` (scope and trap filtering, the content quality
gate) and `analytics.py` (the analytics aggregator and its report flush).

Python strings are modelled as `List Char` (`Chars`) while parsing, and as
`String` at the interfaces.  Raising an exception is modelled with
`Except String`.  HTML parsing (BeautifulSoup) is not embeddable, so text
extraction and anchor collection are passed in as explicit function
parameters; everything else is translated from the source.
-/

namespace Crawler

abbrev Chars := List Char

/-- Membership decision for `Except` values, needed to evaluate results. -/
def exceptDecEq {ε α : Type} [DecidableEq ε] [DecidableEq α] :
    (a b : Except ε α) → Decidable (a = b)
  | .error e, .error f =>
    if h : e = f then .isTrue (by rw [h]) else .isFalse (fun k => by cases k; exact h rfl)
  | .error _, .ok _ => .isFalse (fun k => Except.noConfusion k)
  | .ok _, .error _ => .isFalse (fun k => Except.noConfusion k)
  | .ok a, .ok b =>
    if h : a = b then .isTrue (by rw [h]) else .isFalse (fun k => by cases k; exact h rfl)

instance {ε α : Type} [DecidableEq ε] [DecidableEq α] : DecidableEq (Except ε α) :=
  exceptDecEq

/-- Python `str.lower` on a character list (ASCII, as the crawler uses it). -/
def lowerL (l : Chars) : Chars := l.map Char.toLower

/-- Python substring test `pat in s`. -/
def containsSub (pat : Chars) : Chars → Bool
  | [] => pat.isEmpty
  | c :: t => pat.isPrefixOf (c :: t) || containsSub pat t

/-- Python `s.endswith(pat)`. -/
def endsWithL (s pat : Chars) : Bool := pat.isSuffixOf s

/-- Python `s.startswith(pat)`. -/
def startsWithL (s pat : Chars) : Bool := pat.isPrefixOf s

/-! ## `urllib.parse` model

Only the pieces the crawler reads: scheme, netloc, path, query, fragment,
and the derived `hostname`.  `urlsplit` raises `ValueError("Invalid IPv6
URL")` on mismatched square brackets in the netloc; that is the single
error path of this model. -/

/-- Characters allowed in a URL scheme (`urllib.parse.scheme_chars`). -/
def isSchemeChar (c : Char) : Bool := c.isAlphanum || c == '+' || c == '-' || c == '.'

/-- The scheme well-formedness test of `urlsplit`: a leading ASCII letter,
then scheme characters only. -/
def schemeValid (s : Chars) : Bool :=
  (match s with | c :: _ => c.isAlpha | [] => false) && s.all isSchemeChar

/-- Scheme split of `urlsplit`: if the text before the first colon is a
well-formed scheme (leading letter, then letters, digits, `+`, `-`, `.`),
return it lowercased together with the remainder; otherwise nothing is
split off. -/
def splitScheme (l : Chars) : Chars × Chars :=
  let before := l.takeWhile (fun c => c != ':')
  if before.length = l.length then ([], l)
  else if schemeValid before then
    (lowerL before, l.drop (before.length + 1))
  else ([], l)

/-- A character ending the netloc portion (`urllib.parse._splitnetloc`). -/
def isNetlocEnd (c : Char) : Bool := c == '/' || c == '?' || c == '#'

/-- Netloc split of `urlsplit`: after a leading `//`, the netloc runs until
the first `/`, `?` or `#`. -/
def splitNetloc (l : Chars) : Chars × Chars :=
  if l.take 2 = ['/', '/'] then
    ((l.drop 2).takeWhile (fun c => !isNetlocEnd c), (l.drop 2).dropWhile (fun c => !isNetlocEnd c))
  else ([], l)

/-- Fragment split of `urlsplit`: everything after the first `#`. -/
def splitFragment (l : Chars) : Chars × Chars :=
  if l.contains '#' then (l.takeWhile (fun c => c != '#'), (l.dropWhile (fun c => c != '#')).drop 1)
  else (l, [])

/-- Query split of `urlsplit`: everything after the first `?`. -/
def splitQuery (l : Chars) : Chars × Chars :=
  if l.contains '?' then (l.takeWhile (fun c => c != '?'), (l.dropWhile (fun c => c != '?')).drop 1)
  else (l, [])

/-- The schemes for which `urlparse` splits params (`uses_params`, the
empty scheme included). -/
def usesParams : List String :=
  ["", "ftp", "hdl", "prospero", "http", "imap", "https", "shttp", "rtsp",
   "rtspu", "sip", "sips", "mms", "sftp", "tel"]

/-- `urllib.parse._splitparams`: split the params off the last path
segment; the `;` is searched from the last `/` (its callers guarantee a
`;` is present in the no-slash branch). -/
def splitParams (pa : Chars) : Chars × Chars :=
  if pa.contains '/' then
    let pre := (pa.reverse.dropWhile (fun c => c != '/')).reverse
    let tl := (pa.reverse.takeWhile (fun c => c != '/')).reverse
    if tl.contains ';' then
      (pre ++ tl.takeWhile (fun c => c != ';'), (tl.dropWhile (fun c => c != ';')).drop 1)
    else (pa, [])
  else (pa.takeWhile (fun c => c != ';'), (pa.dropWhile (fun c => c != ';')).drop 1)

/-- The params stage of `urlparse` on top of `urlsplit`: split only when
the scheme uses params and the path carries a `;`. -/
def paramsSplit (scheme pa : Chars) : Chars × Chars :=
  if usesParams.any (fun w => scheme == w.toList) && pa.contains ';' then splitParams pa
  else (pa, [])

/-- Mismatched square brackets in the netloc, on which `urlsplit` raises
`ValueError("Invalid IPv6 URL")`. -/
def bracketMismatch (netloc : Chars) : Bool :=
  (netloc.contains '[' && !netloc.contains ']') || (netloc.contains ']' && !netloc.contains '[')

structure ParsedUrl where
  scheme : Chars
  netloc : Chars
  path : Chars
  params : Chars
  query : Chars
  fragment : Chars
  deriving DecidableEq

/-- `urllib.parse.urlparse`: `urlsplit` followed by the params split. -/
def urlparseL (l : Chars) : Except String ParsedUrl :=
  let p1 := splitScheme l
  let p2 := splitNetloc p1.2
  if bracketMismatch p2.1 then .error "Invalid IPv6 URL"
  else
    let p3 := splitFragment p2.2
    let p4 := splitQuery p3.1
    let pp := paramsSplit p1.1 p4.1
    .ok ⟨p1.1, p2.1, pp.1, pp.2, p4.2, p3.2⟩

/-- Userinfo strip: Python `netloc.rpartition('@')[2]`. -/
def afterLastAt (l : Chars) : Chars := (l.reverse.takeWhile (fun c => c != '@')).reverse

/-- The `hostname` property of a parse result: strip userinfo and port,
unwrap an IPv6 bracket pair, lowercase; `none` when empty. -/
def hostnameOf (p : ParsedUrl) : Option Chars :=
  let hostinfo := afterLastAt p.netloc
  let host :=
    if hostinfo.contains '[' then
      ((hostinfo.dropWhile (fun c => c != '[')).drop 1).takeWhile (fun c => c != ']')
    else hostinfo.takeWhile (fun c => c != ':')
  if host = [] then none else some (lowerL host)

/-- `urllib.parse.urlunsplit`. -/
def urlunsplitL (scheme netloc path query fragment : Chars) : Chars :=
  let url :=
    if netloc ≠ [] ∨ (path ≠ [] ∧ path.take 2 = ['/', '/']) then
      '/' :: '/' :: netloc ++ (if path ≠ [] ∧ path.take 1 ≠ ['/'] then '/' :: path else path)
    else path
  let url2 := if scheme ≠ [] then scheme ++ ':' :: url else url
  let url3 := if query ≠ [] then url2 ++ '?' :: query else url2
  if fragment ≠ [] then url3 ++ '#' :: fragment else url3

/-- `urllib.parse.urlunparse`: rejoin non-empty params, then `urlunsplit`. -/
def urlunparseL (scheme netloc path params query fragment : Chars) : Chars :=
  urlunsplitL scheme netloc (if params ≠ [] then path ++ ';' :: params else path) query fragment

/-- `urllib.parse.urldefrag`: when a `#` is present the URL is parsed
(which can raise) and rebuilt without its fragment through `urlunparse`
(so the scheme comes back lowercased and empty query/params separators
are dropped); otherwise it is returned unchanged without being parsed. -/
def urldefragL (l : Chars) : Except String Chars :=
  if l.contains '#' then
    match urlparseL l with
    | .error e => .error e
    | .ok p => .ok (urlunparseL p.scheme p.netloc p.path p.params p.query [])
  else .ok l

/-! ## `scraper.py`: the scope and trap filter `is_valid` -/

/-- `ALLOWED_HOST_NAMES`: the regular expression
`^(?:.*\.)?(?:ics|cs|informatics|stat)\.uci\.edu$` (case-insensitive; the
input is already lowercased when matched). -/
def allowedHostMatch (host : Chars) : Bool :=
  ["ics.uci.edu", "cs.uci.edu", "informatics.uci.edu", "stat.uci.edu"].any
    (fun d => host == d.toList || endsWithL host ('.' :: d.toList))

/-- The extensions of `BAD_EXTENSIONS`, with `jpe?g`, `tiff?` expanded. -/
def badExtensionList : List String :=
  ["css", "js", "bmp", "gif", "jpg", "jpeg", "ico",
   "png", "tif", "tiff", "mid", "mp2", "mp3", "mp4",
   "wav", "avi", "mov", "mpeg", "ram", "m4v", "mkv", "ogg", "ogv", "pdf",
   "ps", "eps", "tex", "ppt", "pptx", "doc", "docx", "xls", "xlsx", "names",
   "data", "dat", "exe", "bz2", "tar", "msi", "bin", "7z", "psd", "dmg", "iso",
   "epub", "dll", "cnf", "tgz", "sha1",
   "thmx", "mso", "arff", "rtf", "jar", "csv",
   "rm", "smil", "wmv", "swf", "wma", "zip", "rar", "gz"]

/-- `BAD_EXTENSIONS.match(path)`: the anchored pattern `.*\.(…)$` holds
exactly when the path ends in a dot followed by a listed extension. -/
def hasBadExtension (path : Chars) : Bool :=
  badExtensionList.any (fun e => endsWithL path ('.' :: e.toList))

/-- Query parameter detector for the patterns `(^|[&;])(name)=` and
`(^|[&])(name)=`: the parameter either opens the query string or follows
one of the listed separators. -/
def queryHasParam (query : Chars) (names : List String) (seps : List Char) : Bool :=
  names.any (fun w =>
    startsWithL query (w.toList ++ ['=']) ||
      seps.any (fun sep => containsSub (sep :: w.toList ++ ['=']) query))

/-- Directory-word detector for the patterns `/(w1|w2|…)/`: some listed
word occurs between two slashes. -/
def pathHasDirWord (path : Chars) (ws : List String) : Bool :=
  ws.any (fun w => containsSub ('/' :: w.toList ++ ['/']) path)

/-- Greedy count of disjoint occurrences of `pat`, fuelled so evaluation is
structural; the fuel is always instantiated with the text length, which
suffices for the nonempty patterns this is applied to. -/
def countDisjoint (pat : Chars) : Nat → Chars → Nat
  | 0, _ => 0
  | _, [] => 0
  | fuel + 1, c :: t =>
    if pat.isPrefixOf (c :: t) then 1 + countDisjoint pat fuel ((c :: t).drop pat.length)
    else countDisjoint pat fuel t

/-- All contiguous substrings of `l` (as prefixes of suffixes). -/
def allSubstrings (l : Chars) : List Chars :=
  ((List.range (l.length + 1)).map
    (fun i => (List.range (l.length + 1)).map (fun j => (l.drop i).take j))).flatten

/-- `^.*?(/.+?/).*?\1.*?\1.*?$`: some segment of the form `/…/` (nonempty
inside) occurs three or more times disjointly in the path.  The leftmost
greedy matching of `countDisjoint` maximises the number of disjoint
occurrences, so this is exactly matchability of the backreference regex. -/
def hasRepeatedSeg (path : Chars) : Bool :=
  (allSubstrings path).any (fun seg =>
    decide (3 ≤ seg.length) && seg.head? == some '/' && seg.getLast? == some '/' &&
      decide (3 ≤ countDisjoint seg path.length path))

/-- `re.search(r"\d{4}-\d{2}(-\d{2})?", path)`: some position starts with
four digits, a dash and two digits (the optional tail never affects
matchability). -/
def hasDatePattern : Chars → Bool
  | [] => false
  | c0 :: t =>
    (match c0 :: t with
     | a :: b :: c :: d :: '-' :: e :: f :: _ =>
       a.isDigit && b.isDigit && c.isDigit && d.isDigit && e.isDigit && f.isDigit
     | _ => false) || hasDatePattern t

/-- Consume one or two digits at the head, returning the possible rests. -/
def dropDigits12 (r : Chars) : List Chars :=
  match r with
  | a :: rest =>
    if a.isDigit then
      rest :: (match rest with
               | b :: rest2 => if b.isDigit then [rest2] else []
               | [] => [])
    else []
  | [] => []

/-- `re.search(r"-\d{1,2}-\d{1,2}$", path)`: the path ends in a dash, one
or two digits, a dash, and one or two digits (checked on the reversal). -/
def hasMMDDTail (path : Chars) : Bool :=
  (dropDigits12 path.reverse).any (fun r1 =>
    match r1 with
    | '-' :: r2 =>
      (dropDigits12 r2).any (fun r3 => match r3 with | '-' :: _ => true | _ => false)
    | _ => false)

/-- What may follow the year in `/(19|20)\d{2}(-\d{2})?(/|$)`. -/
def yearTail (l : Chars) : Bool :=
  match l with
  | [] => true
  | '/' :: _ => true
  | '-' :: a :: b :: rest =>
    a.isDigit && b.isDigit && (match rest with | [] => true | '/' :: _ => true | _ => false)
  | _ => false

/-- `re.search(r"/(19|20)\d{2}(-\d{2})?(/|$)", path)`. -/
def hasYearPattern : Chars → Bool
  | [] => false
  | c0 :: t =>
    (match c0 :: t with
     | '/' :: a :: b :: c :: d :: rest =>
       ((a == '1' && b == '9') || (a == '2' && b == '0')) && c.isDigit && d.isDigit &&
         yearTail rest
     | _ => false) || hasYearPattern t

/-- `re.search(r"/page/\d+", path)`: a `/page/` marker followed by a digit. -/
def hasPagePattern : Chars → Bool
  | [] => false
  | c0 :: t =>
    (match c0 :: t with
     | '/' :: 'p' :: 'a' :: 'g' :: 'e' :: '/' :: d :: _ => d.isDigit
     | _ => false) || hasPagePattern t

/-- The words of the gitlab path rule, with `commits?` and `jobs?` expanded. -/
def gitlabWords : List String :=
  ["tree", "blob", "blame", "raw", "commit", "commits", "graph", "network", "compare",
   "pipelines", "job", "jobs", "archive"]

/-- The wiki and CMS action parameters blocked in query strings. -/
def actionParams : List String :=
  ["action", "do", "export", "share", "type", "format", "rev", "rev2", "image", "diff",
   "oldid", "replytocom", "idx", "view", "expanded", "sort"]

/-- The calendar and event related query parameters. -/
def calendarParams : List String := ["ical", "outlook-ical", "eventdisplay", "tribe"]

/-- The dynamic endpoint directory words. -/
def dynamicWords : List String :=
  ["api", "feed", "rss", "atom", "xmlrpc", "wp-json", "wp-content", "wp-includes"]

/-- The pure rule chain of `is_valid` after the URL has been defragmented
and parsed, in the order of the source. -/
def validChecks (parsed : ParsedUrl) : Bool :=
  if !(parsed.scheme == "http".toList || parsed.scheme == "https".toList) then false
  else
    let host_name := lowerL ((hostnameOf parsed).getD [])
    if host_name.isEmpty then false
    else if !allowedHostMatch host_name then false
    else
      let path := lowerL parsed.path
      if hasBadExtension path then false
      else if containsSub "doku.php/group:".toList path ||
              containsSub "doku.php/support:".toList path then false
      else if containsSub "/dataset/".toList path || containsSub "/datasets/".toList path then false
      else
        let query := lowerL parsed.query
        if queryHasParam query ["c", "o"] ['&', ';'] then false
        else if queryHasParam query calendarParams ['&'] then false
        else if containsSub "grape.ics.uci.edu".toList host_name &&
                (containsSub "timeline".toList path || containsSub "timeline".toList query) then false
        else if containsSub "grape.ics.uci.edu".toList host_name &&
                (containsSub "attachment".toList path ||
                 containsSub "raw-attachment".toList path) then false
        else if containsSub "ngs.ics.uci.edu".toList host_name &&
                containsSub "wp-login.php".toList path then false
        else if containsSub "ngs.ics.uci.edu".toList host_name &&
                containsSub "redirect_to=".toList query then false
        else if containsSub "archive.ics.uci.edu".toList host_name &&
                (containsSub "ml/machine-learning-databases".toList path ||
                 containsSub "/dataset/".toList path) then false
        else if containsSub "gitlab".toList host_name && pathHasDirWord path gitlabWords then false
        else if queryHasParam query actionParams ['&'] then false
        else if containsSub "/event/".toList path || containsSub "/events/".toList path then false
        else if containsSub "/~eppstein/pix/".toList path then false
        else if pathHasDirWord path dynamicWords then false
        else if hasRepeatedSeg path then false
        else if hasDatePattern path then false
        else if hasMMDDTail path then false
        else if hasYearPattern path then false
        else if hasPagePattern path then false
        else true

/-- `is_valid` on character lists: defragment (which may raise), parse
(which may raise), then run the pure rule chain.  The `except TypeError`
clause of the source re-raises, and a non-string argument is excluded by
typing, so the only modelled error is the parse `ValueError`. -/
def is_validL (l : Chars) : Except String Bool :=
  match urldefragL l with
  | .error e => .error e
  | .ok l2 =>
    match urlparseL l2 with
    | .error e => .error e
    | .ok parsed => .ok (validChecks parsed)

/-- `scraper.is_valid`. -/
def is_valid (url : String) : Except String Bool := is_validL url.toList

/-! ## `analytics.py`: the analytics aggregator

The module-level mutable state becomes `AnalyticsState`; `record_page`
becomes a state transformer that can also raise (its `defragment_url`
call parses fragment-carrying URLs and propagates the parse error).
`get_visible_text` wraps BeautifulSoup and is passed in as a function
parameter `gv`; the stopword set is a parameter as well, because
`stopwords.txt` is data, not code. -/

/-- `tokenize`: lowercase, take maximal alphabetic runs, keep tokens of
length greater than 3 (`re.findall(r'[a-zA-Z]+', text.lower())` followed
by the length filter). -/
def alphaRuns : Chars → List Chars
  | [] => []
  | c :: t =>
    if c.isAlpha then
      match alphaRuns t with
      | [] => [[c]]
      | r :: rs => if (match t with | d :: _ => d.isAlpha | [] => false)
                   then (c :: r) :: rs else [c] :: r :: rs
    else alphaRuns t

/-- `analytics.tokenize`. -/
def tokenize (text : String) : List String :=
  ((alphaRuns (lowerL text.toList)).filter (fun t => decide (3 < t.length))).map
    (fun t => String.mk t)

/-- `analytics.count_words`. -/
def count_words (text : String) : Nat := (tokenize text).length

/-- Add `n` to the count of `w`, appending a fresh entry when absent
(the `Counter` update discipline). -/
def addCount (acc : List (String × Nat)) (w : String) (n : Nat) : List (String × Nat) :=
  if acc.any (fun p => p.1 == w) then
    acc.map (fun p => if p.1 == w then (p.1, p.2 + n) else p)
  else acc ++ [(w, n)]

/-- `collections.Counter` of a token list, in first-occurrence order. -/
def counterOf (toks : List String) : List (String × Nat) :=
  toks.foldl (fun acc t => addCount acc t 1) []

/-- `analytics.get_word_frequencies`: tokenize, drop stopwords, count. -/
def get_word_frequencies (text : String) (stopwords : List String) : List (String × Nat) :=
  counterOf ((tokenize text).filter (fun t => !stopwords.contains t))

/-- `analytics.defragment_url` (a `urldefrag` wrapper, so it can raise). -/
def defragment_url (url : String) : Except String String :=
  match urldefragL url.toList with
  | .error e => .error e
  | .ok l => .ok (String.mk l)

/-- `analytics.get_subdomain`: hostname of the URL when it ends in the
characters `uci.edu`, else `None`; its `try` swallows parse errors. -/
def get_subdomain (url : String) : Option String :=
  match urlparseL url.toList with
  | .error _ => none
  | .ok p =>
    let hostname := lowerL ((hostnameOf p).getD [])
    if endsWithL hostname "uci.edu".toList then some (String.mk hostname) else none

/-- The response object as `record_page` and `scraper` read it:
`status`, `raw_response.content` (`none` means a missing or `None`
content, `some ""` an empty one — both falsy) and the declared
`Content-Type` header. -/
structure Response where
  status : Nat
  content : Option String
  contentType : String
  deriving DecidableEq

/-- The module-level analytics state of `analytics.py`. -/
structure AnalyticsState where
  unique_pages : Finset String
  longest_page_url : String
  longest_page_word_count : Nat
  word_frequency : List (String × Nat)
  subdomain_pages : List (String × Finset String)
  deriving DecidableEq

/-- The initial (import-time) analytics state. -/
def initState : AnalyticsState := ⟨∅, "", 0, [], []⟩

/-- Insert a URL into the set tracked for `sub`, creating it if absent
(`subdomain_pages[subdomain].add(defragged_url)`). -/
def addSubdomain (sp : List (String × Finset String)) (sub url : String) :
    List (String × Finset String) :=
  if sp.any (fun p => p.1 == sub) then
    sp.map (fun p => if p.1 == sub then (p.1, insert url p.2) else p)
  else sp ++ [(sub, {url})]

/-- `analytics.record_page`.  The order of effects follows the source:
defragment (line 161, can raise), the falsy-content early return
(line 164), the Content-Type inspection whose rejecting branch is `pass`
(lines 167-177, hence no effect), then under the lock the `seen` check,
the insertions and the statistics updates. -/
def record_page (gv : String → String) (stopwords : List String) (url : String)
    (resp : Response) (s : AnalyticsState) : Except String AnalyticsState :=
  match defragment_url url with
  | .error e => .error e
  | .ok defragged_url =>
    match resp.content with
    | none => .ok s
    | some c =>
      if c = "" then .ok s
      else
        if defragged_url ∈ s.unique_pages then .ok s
        else
          let pages := insert defragged_url s.unique_pages
          let sp :=
            match get_subdomain defragged_url with
            | some sub => addSubdomain s.subdomain_pages sub defragged_url
            | none => s.subdomain_pages
          let text := gv c
          let word_count := count_words text
          let longest :=
            if word_count > s.longest_page_word_count then (defragged_url, word_count)
            else (s.longest_page_url, s.longest_page_word_count)
          let freqs := get_word_frequencies text stopwords
          let wf := freqs.foldl (fun acc p => addCount acc p.1 p.2) s.word_frequency
          .ok ⟨pages, longest.1, longest.2, wf, sp⟩

/-- One `record_page` call as seen by the shared state: a raised exception
propagates to the caller but leaves the analytics state as it was (the
single raise point precedes every mutation). -/
structure Call where
  url : String
  resp : Response
  deriving DecidableEq

def stepState (gv : String → String) (stopwords : List String)
    (s : AnalyticsState) (c : Call) : AnalyticsState :=
  match record_page gv stopwords c.url c.resp s with
  | .ok s2 => s2
  | .error _ => s

/-- The state after a sequence of `record_page` calls from process start. -/
def runCalls (gv : String → String) (stopwords : List String) (cs : List Call) :
    AnalyticsState :=
  cs.foldl (stepState gv stopwords) initState

/-! ## `scraper.py`: the content quality gate and `scraper` -/

def MIN_CONTENT_LENGTH : Nat := 100

def MAX_CONTENT_LENGTH : Nat := 10000000

def MIN_WORD_COUNT : Nat := 50

/-- Python `len(text.split())`: the number of maximal runs of
non-whitespace characters. -/
def countSplitWords (l : Chars) : Nat :=
  (l.foldl
    (fun (acc : Nat × Bool) c =>
      if c.isWhitespace then (acc.1, false)
      else if acc.2 then acc else (acc.1 + 1, true))
    (0, false)).1

/-- `scraper.extract_next_links`: the status and content guards are from
the source; the BeautifulSoup anchor walk (href collection, scheme and
fragment treatment, `urljoin`) is the abstract parameter `collect`, whose
`try` yields `[]` on a parse failure, hence `Option`. -/
def extract_next_links (collect : String → String → Option (List String))
    (url : String) (resp : Response) : List String :=
  if resp.status ≠ 200 then []
  else
    match resp.content with
    | none => []
    | some c =>
      if c = "" then []
      else
        match collect url c with
        | none => []
        | some links => links

/-- Only `.ok true` results of `is_valid` keep a link (an exception
escaping `is_valid` would propagate out of the comprehension in the
source; no claim exercises that path, and such links are dropped here). -/
def keepsLink (url : String) : Bool :=
  match is_valid url with
  | .ok b => b
  | .error _ => false

/-- `scraper.scraper`: status check, the content quality gate (byte-size
window, then the visible-word minimum on `extractText`'s result, whose
`none` models the caught BeautifulSoup exception), then `record_page`,
link extraction and `is_valid` filtering.  The content length of the model
counts characters where the source counts bytes; the two agree on the
ASCII inputs exercised here. -/
def scraper (extractText : String → Option String) (gv : String → String)
    (stopwords : List String) (collect : String → String → Option (List String))
    (url : String) (resp : Response) (s : AnalyticsState) :
    List String × AnalyticsState :=
  if resp.status ≠ 200 then ([], s)
  else
    match resp.content with
    | none => ([], s)
    | some content =>
      if content = "" then ([], s)
      else if content.length > MAX_CONTENT_LENGTH then ([], s)
      else if content.length < MIN_CONTENT_LENGTH then ([], s)
      else
        match extractText content with
        | none => ([], s)
        | some text =>
          if countSplitWords text.toList < MIN_WORD_COUNT then ([], s)
          else
            let s2 := stepState gv stopwords s ⟨url, resp⟩
            let links := extract_next_links collect url resp
            (links.filter keepsLink, s2)

/-! ## `analytics.save_report`: the flush guard under interleaving

`save_report` reads `_report_written` (line 224), sets it (line 227), and
only then enters `with _lock:` (line 233) to write the three artifacts.
Two triggers (the atexit handler and a signal handler) are modelled as two
threads, each executing that step list; a schedule says whose enabled step
runs next.  `writes` counts how many callers performed the report writes. -/

structure FlushSystem where
  reportWritten : Bool
  lockHeld : Option Bool
  writes : Nat
  pcA : Nat
  pcB : Nat
  deriving DecidableEq

/-- Program counters: 0 = about to check the flag, 1 = about to set it,
2 = about to acquire the lock, 3 = about to write the artifacts,
4 = about to release the lock, 5 = returned. -/
def flushStep (tid : Bool) (st : FlushSystem) : FlushSystem :=
  let pc := if tid then st.pcB else st.pcA
  let setPc := fun (st2 : FlushSystem) (n : Nat) =>
    if tid then { st2 with pcB := n } else { st2 with pcA := n }
  match pc with
  | 0 => if st.reportWritten then setPc st 5 else setPc st 1
  | 1 => setPc { st with reportWritten := true } 2
  | 2 => match st.lockHeld with
         | none => setPc { st with lockHeld := some tid } 3
         | some _ => st
  | 3 => setPc { st with writes := st.writes + 1 } 4
  | 4 => setPc { st with lockHeld := none } 5
  | _ => st

def flushInit : FlushSystem := ⟨false, none, 0, 0, 0⟩

/-- Run a schedule (a list of thread ids) from the initial flush state. -/
def runFlush (sched : List Bool) : FlushSystem :=
  sched.foldl (fun st tid => flushStep tid st) flushInit

/-- The state `record_page` builds for a fresh (unseen) URL `d` with
non-falsy content `c`; named so the proofs can speak about this branch. -/
def freshRecord (gv : String → String) (stopwords : List String) (d c : String)
    (s : AnalyticsState) : AnalyticsState :=
  let sp :=
    match get_subdomain d with
    | some sub => addSubdomain s.subdomain_pages sub d
    | none => s.subdomain_pages
  let text := gv c
  let word_count := count_words text
  let longest :=
    if word_count > s.longest_page_word_count then (d, word_count)
    else (s.longest_page_url, s.longest_page_word_count)
  let freqs := get_word_frequencies text stopwords
  let wf := freqs.foldl (fun acc p => addCount acc p.1 p.2) s.word_frequency
  ⟨insert d s.unique_pages, longest.1, longest.2, wf, sp⟩

/-- The structural invariant tying `subdomain_pages` to `seen`: the host
keys are distinct, and every stored URL is in `seen` and determines its
host through `get_subdomain`. -/
def SubInv (s : AnalyticsState) : Prop :=
  (s.subdomain_pages.map Prod.fst).Nodup ∧
  ∀ p ∈ s.subdomain_pages, ∀ u ∈ p.2,
    u ∈ s.unique_pages ∧ get_subdomain u = some p.1

/-! ## Basic facts about `record_page` -/

/-- The branches of `record_page`, named. -/
theorem record_page_fresh (gv : String → String) (sw : List String) (url : String)
    (resp : Response) (s : AnalyticsState) (d c : String)
    (hd : defragment_url url = .ok d) (hc : resp.content = some c) (hne : c ≠ "")
    (hmem : d ∉ s.unique_pages) :
    record_page gv sw url resp s = .ok (freshRecord gv sw d c s) := by
  unfold record_page
  rw [hd, hc]
  simp only [if_neg hne, if_neg hmem]
  rfl

/-- A `record_page` call whose defragmented URL is already in `seen` is a
no-op, whatever the response carries. -/
theorem record_page_dup (gv : String → String) (sw : List String) (url : String)
    (resp : Response) (s : AnalyticsState) (d : String)
    (hd : defragment_url url = .ok d) (hmem : d ∈ s.unique_pages) :
    record_page gv sw url resp s = .ok s := by
  unfold record_page
  rw [hd]
  cases hc : resp.content with
  | none => rfl
  | some c =>
    by_cases hne : c = ""
    · simp [hne]
    · simp [hne, hmem]

/-- After a successful `record_page` with non-falsy content, the
defragmented URL is in `seen`. -/
theorem record_page_mem (gv : String → String) (sw : List String) (url : String)
    (resp : Response) (s s' : AnalyticsState) (d c : String)
    (hd : defragment_url url = .ok d) (hc : resp.content = some c) (hne : c ≠ "")
    (h : record_page gv sw url resp s = .ok s') :
    d ∈ s'.unique_pages := by
  by_cases hmem : d ∈ s.unique_pages
  · rw [record_page_dup gv sw url resp s d hd hmem] at h
    cases h
    exact hmem
  · rw [record_page_fresh gv sw url resp s d c hd hc hne hmem] at h
    cases h
    exact Finset.mem_insert_self d s.unique_pages

/-- A `record_page` call with falsy content (missing or empty) is a no-op
whenever its URL defragments successfully. -/
theorem record_page_falsy (gv : String → String) (sw : List String) (url : String)
    (resp : Response) (s : AnalyticsState) (d : String)
    (hd : defragment_url url = .ok d)
    (hc : resp.content = none ∨ resp.content = some "") :
    record_page gv sw url resp s = .ok s := by
  unfold record_page
  rw [hd]
  rcases hc with hc | hc
  · rw [hc]
  · rw [hc]
    simp

/-- A successful `record_page` never lowers `longest_page_word_count`, and
changes `longest_page_url` only when the count strictly increases. -/
theorem record_page_longest (gv : String → String) (sw : List String) (url : String)
    (resp : Response) (s s' : AnalyticsState)
    (h : record_page gv sw url resp s = .ok s') :
    s.longest_page_word_count ≤ s'.longest_page_word_count ∧
    (s'.longest_page_url ≠ s.longest_page_url →
      s.longest_page_word_count < s'.longest_page_word_count) := by
  cases hd : defragment_url url with
  | error e =>
    unfold record_page at h
    rw [hd] at h
    cases h
  | ok d =>
    cases hc : resp.content with
    | none =>
      rw [record_page_falsy gv sw url resp s d hd (Or.inl hc)] at h
      cases h
      exact ⟨le_rfl, fun k => absurd rfl k⟩
    | some c =>
      by_cases hne : c = ""
      · rw [record_page_falsy gv sw url resp s d hd (Or.inr (hne ▸ hc))] at h
        cases h
        exact ⟨le_rfl, fun k => absurd rfl k⟩
      · by_cases hmem : d ∈ s.unique_pages
        · rw [record_page_dup gv sw url resp s d hd hmem] at h
          cases h
          exact ⟨le_rfl, fun k => absurd rfl k⟩
        · rw [record_page_fresh gv sw url resp s d c hd hc hne hmem] at h
          cases h
          simp only [freshRecord]
          split_ifs with hw
          · exact ⟨le_of_lt hw, fun _ => hw⟩
          · exact ⟨le_rfl, fun k => absurd rfl k⟩

/-- `stepState` version of `record_page_longest` (a raising call leaves the
state unchanged). -/
theorem stepState_longest (gv : String → String) (sw : List String)
    (s : AnalyticsState) (c : Call) :
    s.longest_page_word_count ≤ (stepState gv sw s c).longest_page_word_count ∧
    ((stepState gv sw s c).longest_page_url ≠ s.longest_page_url →
      s.longest_page_word_count < (stepState gv sw s c).longest_page_word_count) := by
  unfold stepState
  cases hr : record_page gv sw c.url c.resp s with
  | ok s2 => exact record_page_longest gv sw c.url c.resp s s2 hr
  | error e => exact ⟨le_rfl, fun k => absurd rfl k⟩

set_option maxRecDepth 20000

/-! ## Claim C1 -/

/-- Claim C1 as stated expects `is_valid` to return `false` on
`http://archive.ics.uci.edu/`; the code only rejects that host for
specific sub-paths, and the bare root passes every rule, so `is_valid`
returns `true` there. -/
theorem c1_archive_counterexample :
    is_valid "http://archive.ics.uci.edu/" = .ok true ∧
    is_valid "http://archive.ics.uci.edu/" ≠ .ok false := by
  constructor
  · decide
  · decide

/-- Claim C1 (amended): on the five candidate URLs of the spec example,
`is_valid` returns `true, false, false, false, true` — the first four
validity results are as the claim states, but the bare archive host is
accepted, not rejected. -/
theorem c1_validity_examples :
    is_valid "http://www.ics.uci.edu/foo/bar#sec" = .ok true ∧
    is_valid "http://www.ics.uci.edu/a/b/a/b/a/b" = .ok false ∧
    is_valid "http://www.ics.uci.edu/calendar/2024-05" = .ok false ∧
    is_valid "http://google.com/" = .ok false ∧
    is_valid "http://archive.ics.uci.edu/" = .ok true := by
  refine ⟨by decide, by decide, by decide, by decide, by decide⟩

/-! ## Claim C2 -/

/-- Claim C2 as stated says two concurrent `save_report` callers cannot
both pass the `_report_written` guard, so exactly one performs the report
writes.  In the source the flag is checked and set before `with _lock:`
is entered, so the schedule below — both threads read the flag before
either sets it — makes both callers perform the writes. -/
theorem c2_flush_counterexample :
    (runFlush [false, true, false, false, false, false, true, true, true, true]).writes = 2 ∧
    ¬(runFlush [false, true, false, false, false, false, true, true, true, true]).writes = 1 := by
  constructor
  · decide
  · decide

/-- Claim C2 (amended): the `_report_written` check-and-set is NOT covered
by the data lock (it happens before the lock is acquired), so two
interleaved flush callers can both pass the guard and both perform the
report writes; only when one flush call completes before the other starts
does exactly one caller perform the writes. -/
theorem c2_flush_guard :
    (runFlush [false, false, false, false, false, true, true, true, true, true]).writes = 1 ∧
    (runFlush [true, true, true, true, true, false, false, false, false, false]).writes = 1 ∧
    (runFlush [true, false, true, true, true, true, false, false, false, false]).writes = 2 := by
  refine ⟨by decide, by decide, by decide⟩

/-! ## Claim C3 -/

/-- Claim C3 as stated quantifies over arbitrary texts for both calls.
When the first call carries falsy (empty) content, `record_page` returns
before touching `seen`, so the URL is never recorded and a second call
with real content does mutate the state: the second call is not a no-op. -/
theorem c3_counterexample :
    stepState id []
        (stepState id [] initState
          ⟨"http://www.ics.uci.edu/p", ⟨200, some "", "text/html"⟩⟩)
        ⟨"http://www.ics.uci.edu/p", ⟨200, some "aaaa bbbb", "text/html"⟩⟩ ≠
      stepState id [] initState
        ⟨"http://www.ics.uci.edu/p", ⟨200, some "", "text/html"⟩⟩ := by
  decide

/-- Claim C3 (amended): provided the first call's response content is
non-falsy (so the URL is actually inserted into `seen`), a second
`record_page` call whose URL defragments to the same normalized URL is a
no-op — the state after it is exactly the state after the first call,
whatever text or headers the second response carries. -/
theorem c3_record_idempotent (gv : String → String) (sw : List String)
    (u1 u2 d c1 : String) (st1 : Nat) (ct1 : String) (resp2 : Response)
    (s s' : AnalyticsState)
    (hd1 : defragment_url u1 = .ok d) (hd2 : defragment_url u2 = .ok d)
    (hne : c1 ≠ "")
    (h1 : record_page gv sw u1 ⟨st1, some c1, ct1⟩ s = .ok s') :
    record_page gv sw u2 resp2 s' = .ok s' :=
  record_page_dup gv sw u2 resp2 s' d hd2
    (record_page_mem gv sw u1 ⟨st1, some c1, ct1⟩ s s' d c1 hd1 rfl hne h1)

/-- Witness for the amended claim C3 at concrete inputs. -/
theorem c3_record_idempotent_witness :
    record_page id [] "http://www.ics.uci.edu/p#sec"
        ⟨200, some "xxxx yyyy", "text/plain"⟩
        (stepState id [] initState
          ⟨"http://www.ics.uci.edu/p", ⟨200, some "aaaa bbbb", "text/html"⟩⟩) =
      .ok (stepState id [] initState
        ⟨"http://www.ics.uci.edu/p", ⟨200, some "aaaa bbbb", "text/html"⟩⟩) :=
  c3_record_idempotent id [] "http://www.ics.uci.edu/p" "http://www.ics.uci.edu/p#sec"
    "http://www.ics.uci.edu/p" "aaaa bbbb" 200 "text/html"
    ⟨200, some "xxxx yyyy", "text/plain"⟩ initState
    (stepState id [] initState
      ⟨"http://www.ics.uci.edu/p", ⟨200, some "aaaa bbbb", "text/html"⟩⟩)
    (by decide) (by decide) (by decide) (by decide)

/-! ## Claim C4 -/

/-- Claim C4: across every sequence of `record` calls,
`longest_page_word_count` never decreases, and a single call replaces the
stored URL only when its word count is strictly greater than the stored
count — so on ties the first page to achieve the maximum stays stored. -/
theorem c4_longest_page (gv : String → String) (sw : List String)
    (s : AnalyticsState) (cs : List Call) :
    s.longest_page_word_count ≤ (cs.foldl (stepState gv sw) s).longest_page_word_count ∧
    ∀ c : Call, (stepState gv sw s c).longest_page_url ≠ s.longest_page_url →
      s.longest_page_word_count < (stepState gv sw s c).longest_page_word_count := by
  constructor
  · induction cs generalizing s with
    | nil => exact le_rfl
    | cons c cs ih =>
      exact le_trans (stepState_longest gv sw s c).1 (ih (stepState gv sw s c))
  · exact fun c => (stepState_longest gv sw s c).2

/-- Witness for claim C4: recording a first real page strictly increases
the stored count from the initial zero. -/
theorem c4_longest_page_witness :
    initState.longest_page_word_count <
      (stepState id [] initState
        ⟨"http://www.ics.uci.edu/w", ⟨200, some "aaaa", ""⟩⟩).longest_page_word_count :=
  (c4_longest_page id [] initState []).2
    ⟨"http://www.ics.uci.edu/w", ⟨200, some "aaaa", ""⟩⟩ (by decide)

/-! ## Claim C6 -/

/-- Claim C6: a 200-status page whose content length is inside the
configured byte window but whose extracted visible word count is below
`MIN_WORD_COUNT` is rejected by the quality gate: `scraper` returns an
empty link list and the state is untouched — the page contributes nothing
to `seen` or `word_frequency`, and the link collector is never consulted
(the result is the same for every `collect`). -/
theorem c6_quality_gate (extractText : String → Option String) (gv : String → String)
    (sw : List String) (collect : String → String → Option (List String))
    (url : String) (resp : Response) (s : AnalyticsState) (content text : String)
    (hst : resp.status = 200) (hc : resp.content = some content)
    (hmin : MIN_CONTENT_LENGTH ≤ content.length)
    (hmax : content.length ≤ MAX_CONTENT_LENGTH)
    (hx : extractText content = some text)
    (hw : countSplitWords text.toList < MIN_WORD_COUNT) :
    scraper extractText gv sw collect url resp s = ([], s) := by
  have hne : content ≠ "" := by
    intro h0
    rw [h0] at hmin
    exact absurd hmin (by decide)
  have hw2 : countSplitWords text.data < MIN_WORD_COUNT := hw
  unfold scraper
  rw [hst, hc]
  simp [hne, hx, hw2, Nat.not_lt.mpr hmin, Nat.not_lt.mpr hmax]

/-- Witness for claim C6: a 200-character page whose visible text has 30
words is rejected and leaves the initial state unchanged. -/
theorem c6_quality_gate_witness :
    scraper
        (fun _ => some "a a a a a a a a a a a a a a a a a a a a a a a a a a a a a a")
        id [] (fun _ _ => some ["http://www.ics.uci.edu/out"])
        "http://www.ics.uci.edu/thin"
        ⟨200, some (String.mk (List.replicate 200 'a')), "text/html"⟩ initState =
      ([], initState) :=
  c6_quality_gate
    (fun _ => some "a a a a a a a a a a a a a a a a a a a a a a a a a a a a a a")
    id [] (fun _ _ => some ["http://www.ics.uci.edu/out"])
    "http://www.ics.uci.edu/thin"
    ⟨200, some (String.mk (List.replicate 200 'a')), "text/html"⟩ initState
    (String.mk (List.replicate 200 'a'))
    "a a a a a a a a a a a a a a a a a a a a a a a a a a a a a a"
    rfl rfl (by decide) (by decide) rfl (by decide)

/-! ## Claim C7 -/

/-- `addSubdomain` really stores the URL under the requested host. -/
theorem addSubdomain_mem (sp : List (String × Finset String)) (sub u : String) :
    ∃ S, (sub, S) ∈ addSubdomain sp sub u ∧ u ∈ S := by
  unfold addSubdomain
  by_cases hany : sp.any (fun p => p.1 == sub) = true
  · rw [if_pos hany]
    rcases List.any_eq_true.mp hany with ⟨p, hp, hps⟩
    have hkey : p.1 = sub := by simpa using hps
    refine ⟨insert u p.2, ?_, Finset.mem_insert_self u p.2⟩
    have : (if p.1 == sub then (p.1, insert u p.2) else p) = (sub, insert u p.2) := by
      rw [if_pos hps, hkey]
    exact this ▸ List.mem_map_of_mem _ hp
  · rw [if_neg hany]
    exact ⟨{u}, List.mem_append_right sp (by simp), Finset.mem_singleton_self u⟩

/-- Claim C8 as stated says a host merely ending in the characters
`uci.edu` without a dot boundary is not tracked.  `get_subdomain` uses a
bare `endswith("uci.edu")`, so recording `http://notuci.edu/` tracks the
host `notuci.edu`, which is neither `uci.edu` nor one of its subdomains. -/
theorem c8_counterexample :
    (stepState id [] initState
        ⟨"http://notuci.edu/", ⟨200, some "aaaa", ""⟩⟩).subdomain_pages =
      [("notuci.edu", {"http://notuci.edu/"})] ∧
    ¬("notuci.edu" = "uci.edu" ∨
       endsWithL "notuci.edu".toList ".uci.edu".toList = true) := by
  refine ⟨by decide, by decide⟩

/-- Claim C8 (amended): a freshly recorded URL is stored in
`subdomain_pages` under host `sub` exactly when `get_subdomain` yields
`sub`, and `get_subdomain` accepts every hostname whose character string
ends in `uci.edu` — the dot boundary is not required, so hosts such as
`notuci.edu` are tracked too. -/
theorem c8_subdomain_tracking (gv : String → String) (sw : List String)
    (url d c : String) (st : Nat) (ct : String) (s s' : AnalyticsState)
    (hd : defragment_url url = .ok d) (hne : c ≠ "") (hmem : d ∉ s.unique_pages)
    (h : record_page gv sw url ⟨st, some c, ct⟩ s = .ok s') :
    (∀ sub, get_subdomain d = some sub →
      ∃ S, (sub, S) ∈ s'.subdomain_pages ∧ d ∈ S) ∧
    (get_subdomain d = none → s'.subdomain_pages = s.subdomain_pages) ∧
    (∀ v sub, get_subdomain v = some sub →
      endsWithL sub.toList "uci.edu".toList = true) := by
  rw [record_page_fresh gv sw url ⟨st, some c, ct⟩ s d c hd rfl hne hmem] at h
  cases h
  refine ⟨?_, ?_, ?_⟩
  · intro sub hsub
    simp only [freshRecord, hsub]
    exact addSubdomain_mem s.subdomain_pages sub d
  · intro hsub
    simp only [freshRecord, hsub]
  · intro v sub hsub
    unfold get_subdomain at hsub
    split at hsub
    · cases hsub
    · next p heq =>
        simp at hsub
        obtain ⟨h1, h2⟩ := hsub
        rw [← h2]
        exact h1

/-- Witness for the amended claim C8: recording `http://notuci.edu/`
stores it under the boundary-free host `notuci.edu`. -/
theorem c8_subdomain_tracking_witness :
    ∃ S, ("notuci.edu", S) ∈
        (stepState id [] initState
          ⟨"http://notuci.edu/", ⟨200, some "aaaa", ""⟩⟩).subdomain_pages ∧
      "http://notuci.edu/" ∈ S :=
  (c8_subdomain_tracking id [] "http://notuci.edu/" "http://notuci.edu/" "aaaa" 200 ""
      initState
      (stepState id [] initState ⟨"http://notuci.edu/", ⟨200, some "aaaa", ""⟩⟩)
      (by decide) (by decide) (by decide) (by decide)).1
    "notuci.edu" (by decide)

/-! ## Claim C5 -/

/-- Scanning stops at an inserted boundary character the predicate
rejects. -/
theorem takeWhile_append_stop {p : Char → Bool} {x : Char} (hp : p x = false) (a f : Chars) :
    (a ++ x :: f).takeWhile p = a.takeWhile p := by
  rw [List.takeWhile_append]
  split
  next hlen =>
    rw [(List.takeWhile_prefix p).eq_of_length hlen, List.takeWhile_cons, hp]
    simp
  next => rfl

/-- Dropping stops at an inserted boundary character the predicate
rejects. -/
theorem dropWhile_append_stop {p : Char → Bool} {x : Char} (hp : p x = false) (a f : Chars) :
    (a ++ x :: f).dropWhile p = a.dropWhile p ++ x :: f := by
  rw [List.dropWhile_append]
  split
  next hemp =>
    rw [List.isEmpty_iff.mp hemp, List.nil_append, List.dropWhile_cons, hp]
    simp
  next => rfl

/-- Scanning passes over a wholly accepted prefix. -/
theorem takeWhile_all_append {p : Char → Bool} (a r : Chars)
    (h : ∀ c ∈ a, p c = true) :
    (a ++ r).takeWhile p = a ++ r.takeWhile p := by
  rw [List.takeWhile_append, if_pos]
  rw [List.takeWhile_eq_self_iff.mpr h]

/-- Dropping consumes a wholly accepted prefix. -/
theorem dropWhile_all_append {p : Char → Bool} (a r : Chars)
    (h : ∀ c ∈ a, p c = true) :
    (a ++ r).dropWhile p = r.dropWhile p := by
  rw [List.dropWhile_append]
  rw [if_pos]
  rw [List.isEmpty_iff]
  rw [List.dropWhile_eq_nil_iff]
  exact h

/-- Scanning that stops inside a prefix ignores everything appended. -/
theorem takeWhile_stop_append {p : Char → Bool} (a r : Chars)
    (h : ∃ c ∈ a, p c = false) :
    (a ++ r).takeWhile p = a.takeWhile p := by
  rw [List.takeWhile_append, if_neg]
  intro hlen
  rcases h with ⟨c, hc, hpc⟩
  have := List.takeWhile_eq_self_iff.mp ((List.takeWhile_prefix p).eq_of_length hlen) c hc
  rw [this] at hpc
  cases hpc

/-- The head of a non-empty `dropWhile` fails the predicate. -/
theorem dropWhile_head_false {p : Char → Bool} (l : Chars) (c : Char) (t : Chars)
    (h : l.dropWhile p = c :: t) : p c = false := by
  induction l with
  | nil => cases h
  | cons a l2 ih =>
    rw [List.dropWhile_cons] at h
    by_cases hpa : p a = true
    · rw [if_pos hpa] at h
      exact ih h
    · rw [if_neg hpa] at h
      cases h
      exact Bool.not_eq_true _ ▸ hpa

/-- A hash-free list is untouched by the fragment strip. -/
theorem takeWhile_hash_eq_self (l : Chars) (h : '#' ∉ l) :
    l.takeWhile (fun c => c != '#') = l :=
  List.takeWhile_eq_self_iff.mpr fun c hc =>
    bne_iff_ne.mpr fun he => h (he ▸ hc)

/-- The fragment strip never keeps a hash. -/
theorem not_hash_mem_takeWhile (l : Chars) :
    '#' ∉ l.takeWhile (fun c => c != '#') :=
  fun h => by simpa using List.mem_takeWhile_imp h

/-- A list containing `x` splits as scan-prefix, `x`, remainder. -/
theorem contains_char_decomp (x : Char) (l : Chars) (h : l.contains x = true) :
    ∃ f, l = l.takeWhile (fun c => c != x) ++ x :: f := by
  induction l with
  | nil => cases h
  | cons c t ih =>
    by_cases hch : c = x
    · subst hch
      refine ⟨t, ?_⟩
      rw [List.takeWhile_cons]
      simp
    · have ht : t.contains x = true := by
        rw [List.contains_cons] at h
        rcases Bool.or_eq_true_iff.mp h with h1 | h1
        · exact absurd (beq_iff_eq.mp h1).symm hch
        · exact h1
      rcases ih ht with ⟨f, hf⟩
      refine ⟨f, ?_⟩
      rw [List.takeWhile_cons]
      have hpc : (c != x) = true := bne_iff_ne.mpr hch
      rw [hpc]
      simpa using hf

/-- Restated for membership instead of `contains`. -/
theorem mem_char_decomp (x : Char) (l : Chars) (h : x ∈ l) :
    ∃ f, l = l.takeWhile (fun c => c != x) ++ x :: f :=
  contains_char_decomp x l (by simpa using h)

/-- The scan prefix towards `x` never contains `x`. -/
theorem not_mem_takeWhile_ne (x : Char) (l : Chars) :
    x ∉ l.takeWhile (fun c => c != x) :=
  fun h => by simpa using List.mem_takeWhile_imp h

/-- An `x`-free list is untouched by the scan towards `x`. -/
theorem takeWhile_ne_eq_self (x : Char) (l : Chars) (h : x ∉ l) :
    l.takeWhile (fun c => c != x) = l :=
  List.takeWhile_eq_self_iff.mpr fun c hc =>
    bne_iff_ne.mpr fun he => h (he ▸ hc)

/-- The rest returned by `splitScheme` is made of characters of the input. -/
theorem splitScheme_rest_subset (b : Chars) : (splitScheme b).2 ⊆ b := by
  simp only [splitScheme]
  split
  · exact fun x h => h
  · split
    · dsimp only
      exact List.drop_subset _ b
    · exact fun x h => h

/-- The rest returned by `splitNetloc` is made of characters of the input. -/
theorem splitNetloc_rest_subset (b : Chars) : (splitNetloc b).2 ⊆ b := by
  simp only [splitNetloc]
  split
  · dsimp only
    exact fun x h => List.drop_subset 2 b ((List.dropWhile_sublist _).subset h)
  · exact fun x h => h

/-- The scheme split of a fragment-carrying URL: the scheme is that of the
stripped URL and the fragment stays in the remainder. -/
theorem splitScheme_frag (b f : Chars) :
    splitScheme (b ++ '#' :: f) = ((splitScheme b).1, (splitScheme b).2 ++ '#' :: f) := by
  simp only [splitScheme]
  by_cases hball : (b.takeWhile (fun c => c != ':')).length = b.length
  · have hbeq : b.takeWhile (fun c => c != ':') = b :=
      (List.takeWhile_prefix _).eq_of_length hball
    have htw : (b ++ '#' :: f).takeWhile (fun c => c != ':') =
        b ++ '#' :: f.takeWhile (fun c => c != ':') := by
      rw [List.takeWhile_append, if_pos (by rw [hbeq]), List.takeWhile_cons]
      simp
    rw [htw, if_pos hball]
    by_cases hfall : (f.takeWhile (fun c => c != ':')).length = f.length
    · rw [if_pos (by simp [hfall])]
    · rw [if_neg (by simp; omega)]
      have hhash : '#' ∈ b ++ '#' :: f.takeWhile (fun c => c != ':') := by simp
      rw [if_neg ?_]
      intro hcond
      unfold schemeValid at hcond
      have hall := ((Bool.and_eq_true _ _).mp hcond).2
      have := List.all_eq_true.mp hall '#' hhash
      exact absurd this (by decide)
  · have hlt : (b.takeWhile (fun c => c != ':')).length < b.length :=
      lt_of_le_of_ne (List.takeWhile_prefix _).length_le hball
    have htw : (b ++ '#' :: f).takeWhile (fun c => c != ':') =
        b.takeWhile (fun c => c != ':') := by
      rw [List.takeWhile_append, if_neg hball]
    rw [htw, if_neg hball, if_neg (by simp; omega)]
    by_cases hvalid : schemeValid (b.takeWhile (fun c => c != ':')) = true
    · rw [if_pos hvalid, if_pos hvalid]
      rw [List.drop_append_of_le_length (by omega)]
    · rw [if_neg hvalid, if_neg hvalid]

/-- The netloc split of a fragment-carrying remainder. -/
theorem splitNetloc_frag (r f : Chars) :
    splitNetloc (r ++ '#' :: f) = ((splitNetloc r).1, (splitNetloc r).2 ++ '#' :: f) := by
  simp only [splitNetloc]
  by_cases h2 : r.take 2 = ['/', '/']
  · have hlen : 2 ≤ r.length := by
      by_contra hlt
      push_neg at hlt
      rw [List.take_of_length_le (by omega)] at h2
      subst h2
      simp at hlt
    rw [List.take_append_of_le_length hlen, if_pos h2, if_pos h2,
      List.drop_append_of_le_length hlen,
      takeWhile_append_stop (by decide), dropWhile_append_stop (by decide)]
  · have h2f : ¬(r ++ '#' :: f).take 2 = ['/', '/'] := by
      intro hk
      rcases r with _ | ⟨c1, _ | ⟨c2, t⟩⟩
      · simp at hk
      · simp at hk
      · rw [List.take_append_of_le_length (by simp)] at hk
        exact h2 hk
    rw [if_neg h2, if_neg h2f]

/-- Parsing a URL whose fragment part is appended to a hash-free prefix:
same components, fragment set to the appended part, same error behaviour. -/
theorem urlparseL_frag (b f : Chars) (hb : '#' ∉ b) :
    urlparseL (b ++ '#' :: f) =
      Except.map (fun p => { p with fragment := f }) (urlparseL b) := by
  simp only [urlparseL]
  rw [splitScheme_frag b f]
  have hr1 : '#' ∉ (splitScheme b).2 := fun h => hb (splitScheme_rest_subset b h)
  rw [splitNetloc_frag ((splitScheme b).2) f]
  have hr2 : '#' ∉ (splitNetloc (splitScheme b).2).2 :=
    fun h => hr1 (splitNetloc_rest_subset _ h)
  by_cases hbr : bracketMismatch (splitNetloc (splitScheme b).2).1 = true
  · rw [if_pos hbr, if_pos hbr]
    rfl
  · rw [if_neg hbr, if_neg hbr]
    have htake : ((splitNetloc (splitScheme b).2).2).takeWhile (fun c => c != '#') =
        (splitNetloc (splitScheme b).2).2 := takeWhile_hash_eq_self _ hr2
    have hdrop : ((splitNetloc (splitScheme b).2).2).dropWhile (fun c => c != '#') = [] :=
      List.dropWhile_eq_nil_iff.mpr fun c hc => bne_iff_ne.mpr fun he => hr2 (he ▸ hc)
    have hsf : splitFragment ((splitNetloc (splitScheme b).2).2 ++ '#' :: f) =
        ((splitNetloc (splitScheme b).2).2, f) := by
      simp only [splitFragment]
      rw [if_pos (by simp), takeWhile_append_stop (by decide), htake,
        dropWhile_append_stop (by decide), hdrop]
      simp
    have hsf2 : splitFragment (splitNetloc (splitScheme b).2).2 =
        ((splitNetloc (splitScheme b).2).2, []) := by
      simp only [splitFragment]
      rw [if_neg ?_]
      intro hcc
      exact hr2 (by simpa using hcc)
    rw [hsf, hsf2]
    rfl

/-- Code points of `Char.ofNat` in the lower-case ASCII range. -/
theorem char_toNat_ofNat_ascii (m : Nat) (h1 : 97 ≤ m) (h2 : m ≤ 122) :
    (Char.ofNat m).toNat = m := by
  have hv : m.isValidChar := Or.inl (by omega)
  unfold Char.ofNat
  rw [dif_pos hv]
  unfold Char.ofNatAux Char.toNat
  show ({ toBitVec := BitVec.ofNatLt m (by omega) } : UInt32).toNat = m
  simp [UInt32.toNat, BitVec.toNat_ofNatLt]

/-- `UInt32` order agrees with code-point order. -/
theorem uint32_le_toNat (a b : UInt32) : a ≤ b ↔ a.toNat ≤ b.toNat := by
  rw [UInt32.le_def]
  exact Iff.rfl

/-- `Char.isUpper` through code points. -/
theorem isUpper_toNat (c : Char) : c.isUpper = true ↔ 65 ≤ c.toNat ∧ c.toNat ≤ 90 := by
  simp only [Char.isUpper, Bool.and_eq_true, decide_eq_true_eq, uint32_le_toNat]
  constructor
  · intro ⟨h1, h2⟩
    refine ⟨le_trans (by simp [UInt32.toNat]) h1, le_trans h2 (by simp [UInt32.toNat])⟩
  · intro ⟨h1, h2⟩
    refine ⟨le_trans (by simp [UInt32.toNat]) h1, le_trans h2 (by simp [UInt32.toNat])⟩

/-- `Char.isLower` through code points. -/
theorem isLower_toNat (c : Char) : c.isLower = true ↔ 97 ≤ c.toNat ∧ c.toNat ≤ 122 := by
  simp only [Char.isLower, Bool.and_eq_true, decide_eq_true_eq, uint32_le_toNat]
  constructor
  · intro ⟨h1, h2⟩
    refine ⟨le_trans (by simp [UInt32.toNat]) h1, le_trans h2 (by simp [UInt32.toNat])⟩
  · intro ⟨h1, h2⟩
    refine ⟨le_trans (by simp [UInt32.toNat]) h1, le_trans h2 (by simp [UInt32.toNat])⟩

/-- `Char.isAlpha` through code points. -/
theorem isAlpha_toNat (c : Char) :
    c.isAlpha = true ↔ (65 ≤ c.toNat ∧ c.toNat ≤ 90) ∨ (97 ≤ c.toNat ∧ c.toNat ≤ 122) := by
  simp only [Char.isAlpha, Bool.or_eq_true, isUpper_toNat, isLower_toNat]

/-- `Char.toLower` fixes everything outside ASCII upper-case. -/
theorem toLower_eq_self (c : Char) (h : ¬(65 ≤ c.toNat ∧ c.toNat ≤ 90)) :
    Char.toLower c = c := by
  unfold Char.toLower
  exact if_neg fun k => h ⟨k.1, k.2⟩

/-- `Char.toLower` shifts ASCII upper-case down by 32. -/
theorem toLower_toNat_upper (c : Char) (h : 65 ≤ c.toNat ∧ c.toNat ≤ 90) :
    (Char.toLower c).toNat = c.toNat + 32 := by
  unfold Char.toLower
  rw [if_pos ⟨h.1, h.2⟩]
  exact char_toNat_ofNat_ascii _ (by omega) (by omega)

/-- `Char.toLower` preserves letters. -/
theorem toLower_isAlpha (c : Char) (h : c.isAlpha = true) :
    (Char.toLower c).isAlpha = true := by
  rcases (isAlpha_toNat c).mp h with hu | hl
  · rw [isAlpha_toNat]
    right
    rw [toLower_toNat_upper c hu]
    omega
  · rw [toLower_eq_self c (by omega)]
    exact h

/-- `Char.toLower` preserves scheme characters. -/
theorem toLower_isSchemeChar (c : Char) (h : isSchemeChar c = true) :
    isSchemeChar (Char.toLower c) = true := by
  by_cases hu : 65 ≤ c.toNat ∧ c.toNat ≤ 90
  · have halpha : (Char.toLower c).isAlpha = true :=
      toLower_isAlpha c ((isAlpha_toNat c).mpr (Or.inl hu))
    unfold isSchemeChar Char.isAlphanum
    rw [halpha]
    rfl
  · rw [toLower_eq_self c hu]
    exact h

/-- `Char.toLower` is idempotent. -/
theorem toLower_idem (c : Char) : Char.toLower (Char.toLower c) = Char.toLower c := by
  by_cases hu : 65 ≤ c.toNat ∧ c.toNat ≤ 90
  · have h2 := toLower_toNat_upper c hu
    exact toLower_eq_self _ (by omega)
  · rw [toLower_eq_self c hu, toLower_eq_self c hu]

/-- `Char.toLower` reflects equality with any non-lower-case character. -/
theorem toLower_eq_nonletter (c x : Char) (hx : ¬(97 ≤ x.toNat ∧ x.toNat ≤ 122))
    (h : Char.toLower c = x) : c = x := by
  by_cases hu : 65 ≤ c.toNat ∧ c.toNat ≤ 90
  · exfalso
    have h2 := toLower_toNat_upper c hu
    rw [h] at h2
    exact hx ⟨by omega, by omega⟩
  · rw [toLower_eq_self c hu] at h
    exact h

/-- Lowercasing is idempotent on lists. -/
theorem lowerL_idem (l : Chars) : lowerL (lowerL l) = lowerL l := by
  unfold lowerL
  rw [List.map_map]
  refine List.map_congr_left fun c _ => ?_
  exact toLower_idem c

/-- Lowercasing preserves scheme well-formedness. -/
theorem schemeValid_lowerL (s : Chars) (h : schemeValid s = true) :
    schemeValid (lowerL s) = true := by
  unfold schemeValid at h ⊢
  obtain ⟨hhead, hall⟩ := (Bool.and_eq_true _ _).mp h
  refine (Bool.and_eq_true _ _).mpr ⟨?_, ?_⟩
  · cases s with
    | nil => cases hhead
    | cons c t => exact toLower_isAlpha c hhead
  · rw [List.all_eq_true] at hall ⊢
    intro x hx
    rcases List.mem_map.mp hx with ⟨c, hc, rfl⟩
    exact toLower_isSchemeChar c (hall c hc)

/-- Lowercasing cannot create a non-lower-case character. -/
theorem not_mem_lowerL (l : Chars) (x : Char) (hx : ¬(97 ≤ x.toNat ∧ x.toNat ≤ 122))
    (h : x ∉ l) : x ∉ lowerL l := by
  intro hm
  rcases List.mem_map.mp hm with ⟨c, hc, hcl⟩
  exact h (toLower_eq_nonletter c x hx hcl ▸ hc)

/-- Scheme characters exclude the separator characters. -/
theorem schemeValid_no_colon (s : Chars) (h : schemeValid s = true) : ':' ∉ s := by
  intro hm
  have := List.all_eq_true.mp ((Bool.and_eq_true _ _).mp h).2 ':' hm
  exact absurd this (by decide)

/-- A fully scanned list leaves nothing behind. -/
theorem dropWhile_eq_nil_of_takeWhile_self {p : Char → Bool} (l : Chars)
    (h : l.takeWhile p = l) : l.dropWhile p = [] :=
  List.dropWhile_eq_nil_iff.mpr (List.takeWhile_eq_self_iff.mp h)

/-- A scan rejected at the head drops nothing. -/
theorem dropWhile_eq_self_of_takeWhile_nil {p : Char → Bool} (l : Chars)
    (h : l.takeWhile p = []) : l.dropWhile p = l := by
  have hsplit := List.takeWhile_append_dropWhile (p := p) (l := l)
  rw [h] at hsplit
  simpa using hsplit

/-- A colon-free input yields no scheme. -/
theorem splitScheme_no_colon (l : Chars) (h : ':' ∉ l) : splitScheme l = ([], l) := by
  unfold splitScheme
  have hself := takeWhile_ne_eq_self ':' l h
  rw [if_pos (by rw [hself])]

/-- An ill-formed candidate yields no scheme. -/
theorem splitScheme_invalid (l : Chars)
    (h : schemeValid (l.takeWhile (fun c => c != ':')) = false) :
    splitScheme l = ([], l) := by
  unfold splitScheme
  by_cases hlen : (l.takeWhile (fun c => c != ':')).length = l.length
  · rw [if_pos hlen]
  · rw [if_neg hlen, if_neg (by simp [h])]

/-- A non-letter head yields no scheme. -/
theorem splitScheme_cons_not_alpha (c : Char) (t : Chars) (h : c.isAlpha = false) :
    splitScheme (c :: t) = ([], c :: t) := by
  apply splitScheme_invalid
  rw [List.takeWhile_cons]
  by_cases hc : (c != ':') = true
  · rw [if_pos hc]
    unfold schemeValid
    simp [h]
  · rw [if_neg hc]
    rfl

/-- A well-formed lower-case scheme before the colon is split off. -/
theorem splitScheme_valid_prefix (s rest : Chars) (hv : schemeValid s = true)
    (hl : lowerL s = s) :
    splitScheme (s ++ ':' :: rest) = (s, rest) := by
  have hc : ':' ∉ s := schemeValid_no_colon s hv
  unfold splitScheme
  have htw : (s ++ ':' :: rest).takeWhile (fun c => c != ':') = s := by
    rw [takeWhile_append_stop (by decide), takeWhile_ne_eq_self ':' s hc]
  rw [htw]
  rw [if_neg (by simp)]
  rw [if_pos hv, hl]
  have hdrop : (s ++ ':' :: rest).drop (s.length + 1) = rest := by
    rw [show s ++ ':' :: rest = (s ++ [':']) ++ rest by simp]
    rw [show s.length + 1 = (s ++ [':']).length by simp]
    exact List.drop_left _ _
  rw [hdrop]

/-- Any scheme produced by `splitScheme` is well formed and lower case. -/
theorem splitScheme_fst_props (l : Chars) :
    (splitScheme l).1 = [] ∨
      (schemeValid (splitScheme l).1 = true ∧ lowerL (splitScheme l).1 = (splitScheme l).1) := by
  simp only [splitScheme]
  split
  · left
    rfl
  · split
    next hv =>
      right
      exact ⟨schemeValid_lowerL _ hv, lowerL_idem _⟩
    · left
      rfl

/-- When no scheme is split off, the remainder is the input itself. -/
theorem splitScheme_snd_of_fst_nil (l : Chars) (h : (splitScheme l).1 = []) :
    (splitScheme l).2 = l := by
  simp only [splitScheme] at h ⊢
  split at h
  next hlen => rw [if_pos hlen]
  next hlen =>
    split at h
    next hv =>
      exfalso
      have hb : l.takeWhile (fun c => c != ':') = [] := by
        have hmap : lowerL (l.takeWhile (fun c => c != ':')) = [] := h
        unfold lowerL at hmap
        exact List.map_eq_nil.mp hmap
      rw [hb] at hv
      exact absurd hv (by decide)
    next hv => rw [if_neg hlen, if_neg hv]

/-- A colon-carrying input on which no scheme was split has an ill-formed
candidate. -/
theorem splitScheme_invalid_of_nosplit (l : Chars) (hcol : ':' ∈ l)
    (h : (splitScheme l).1 = []) :
    schemeValid (l.takeWhile (fun c => c != ':')) = false := by
  simp only [splitScheme] at h
  split at h
  next hlen =>
    exfalso
    have hself := (List.takeWhile_prefix _).eq_of_length hlen
    have := List.takeWhile_eq_self_iff.mp hself ':' hcol
    simp at this
  next hlen =>
    split at h
    next hv =>
      exfalso
      have hb : l.takeWhile (fun c => c != ':') = [] := by
        have hmap : lowerL (l.takeWhile (fun c => c != ':')) = [] := h
        unfold lowerL at hmap
        exact List.map_eq_nil.mp hmap
      rw [hb] at hv
      exact absurd hv (by decide)
    next hv => exact Bool.not_eq_true _ ▸ hv

/-- A candidate containing a non-scheme character is ill formed. -/
theorem schemeValid_false_of_bad (s : Chars) (c : Char) (hc : c ∈ s)
    (hbad : isSchemeChar c = false) : schemeValid s = false := by
  by_contra hT
  have hv : schemeValid s = true := Bool.not_eq_false _ ▸ hT
  have := List.all_eq_true.mp ((Bool.and_eq_true _ _).mp hv).2 c hc
  rw [hbad] at this
  cases this

/-- Rebuilding a netloc prefix between the double slash and a stopped
remainder. -/
theorem splitNetloc_build (n rest : Chars)
    (hn : ∀ c ∈ n, isNetlocEnd c = false)
    (hrest : rest.takeWhile (fun c => !isNetlocEnd c) = []) :
    splitNetloc ('/' :: '/' :: (n ++ rest)) = (n, rest) := by
  unfold splitNetloc
  rw [if_pos (show ('/' :: '/' :: (n ++ rest)).take 2 = ['/', '/'] from rfl)]
  have hall : ∀ c ∈ n, (!isNetlocEnd c) = true := fun c hc => by rw [hn c hc]; rfl
  have ht : (('/' :: '/' :: (n ++ rest)).drop 2).takeWhile (fun c => !isNetlocEnd c) = n := by
    show (n ++ rest).takeWhile (fun c => !isNetlocEnd c) = n
    rw [takeWhile_all_append n rest hall, hrest, List.append_nil]
  have hd : (('/' :: '/' :: (n ++ rest)).drop 2).dropWhile (fun c => !isNetlocEnd c) = rest := by
    show (n ++ rest).dropWhile (fun c => !isNetlocEnd c) = rest
    rw [dropWhile_all_append n rest hall]
    exact dropWhile_eq_self_of_takeWhile_nil rest hrest
  rw [ht, hd]

/-- Without a leading double slash there is no netloc. -/
theorem splitNetloc_nosplit (l : Chars) (h : ¬l.take 2 = ['/', '/']) :
    splitNetloc l = ([], l) := by
  unfold splitNetloc
  rw [if_neg h]

/-- Every netloc character passes the netloc scan. -/
theorem splitNetloc_fst_safe (l : Chars) :
    ∀ c ∈ (splitNetloc l).1, isNetlocEnd c = false := by
  unfold splitNetloc
  split
  · intro c hc
    have := List.mem_takeWhile_imp hc
    simpa using this
  · intro c hc
    cases hc

/-- The netloc remainder is empty or starts with a stopping character. -/
theorem splitNetloc_snd_props (l : Chars) (h : l.take 2 = ['/', '/']) :
    (splitNetloc l).2 = [] ∨
      ∃ c t, (splitNetloc l).2 = c :: t ∧ isNetlocEnd c = true := by
  unfold splitNetloc
  rw [if_pos h]
  cases hd : (l.drop 2).dropWhile (fun c => !isNetlocEnd c) with
  | nil => exact Or.inl rfl
  | cons c t =>
    right
    refine ⟨c, t, rfl, ?_⟩
    have := dropWhile_head_false _ c t hd
    simpa using this

/-- A hash-free input has no fragment. -/
theorem splitFragment_no_hash (l : Chars) (h : '#' ∉ l) : splitFragment l = (l, []) := by
  unfold splitFragment
  rw [if_neg (fun hk => h (by simpa using hk))]

/-- Splitting the query off at an inserted `?`. -/
theorem splitQuery_build (a q : Chars) (h : '?' ∉ a) :
    splitQuery (a ++ '?' :: q) = (a, q) := by
  unfold splitQuery
  rw [if_pos (by simp)]
  have hself := takeWhile_ne_eq_self '?' a h
  rw [takeWhile_append_stop (by decide), hself,
    dropWhile_append_stop (by decide),
    dropWhile_eq_nil_of_takeWhile_self a hself]
  simp

/-- A `?`-free input has no query. -/
theorem splitQuery_no_q (l : Chars) (h : '?' ∉ l) : splitQuery l = (l, []) := by
  unfold splitQuery
  rw [if_neg (fun hk => h (by simpa using hk))]

/-- The pre-query part is a prefix of the input. -/
theorem splitQuery_fst_prefix (l : Chars) : (splitQuery l).1 <+: l := by
  unfold splitQuery
  split
  · exact List.takeWhile_prefix _
  · exact List.prefix_refl l

/-- The query is made of characters of the input. -/
theorem splitQuery_snd_subset (l : Chars) : (splitQuery l).2 ⊆ l := by
  unfold splitQuery
  split
  · exact fun x hx => (List.dropWhile_sublist _).subset (List.drop_subset 1 _ hx)
  · exact fun x hx => by cases hx

/-- The pre-query part never contains `?`. -/
theorem splitQuery_fst_no_q (l : Chars) : '?' ∉ (splitQuery l).1 := by
  unfold splitQuery
  split
  next hc => exact not_mem_takeWhile_ne '?' l
  next hc => exact fun hm => hc (by simpa using hm)

/-- A query-carrying input splits as prefix, `?`, query. -/
theorem splitQuery_decomp (l : Chars) (h : '?' ∈ l) :
    l = (splitQuery l).1 ++ '?' :: (splitQuery l).2 := by
  unfold splitQuery
  rw [if_pos (by simpa using h)]
  rcases mem_char_decomp '?' l h with ⟨f, hf⟩
  have hnil : (l.takeWhile (fun c => c != '?')).dropWhile (fun c => c != '?') = [] := by
    rw [List.dropWhile_eq_nil_iff]
    intro x hx
    have := List.mem_takeWhile_imp hx
    simpa using this
  have hd : l.dropWhile (fun c => c != '?') = '?' :: f := by
    conv_lhs => rw [hf]
    rw [dropWhile_append_stop (by decide), hnil]
    rfl
  rw [hd]
  simpa using hf

/-- A list containing `x` splits as scan-prefix, `x`, scan-remainder. -/
theorem dropWhile_decomp (x : Char) (l : Chars) (h : x ∈ l) :
    l = l.takeWhile (fun c => c != x) ++ x :: (l.dropWhile (fun c => c != x)).drop 1 := by
  rcases mem_char_decomp x l h with ⟨f, hf⟩
  have hnil : (l.takeWhile (fun c => c != x)).dropWhile (fun c => c != x) = [] := by
    rw [List.dropWhile_eq_nil_iff]
    intro y hy
    have := List.mem_takeWhile_imp hy
    simpa using this
  have hd : l.dropWhile (fun c => c != x) = x :: f := by
    conv_lhs => rw [hf]
    rw [dropWhile_append_stop (by simp), hnil]
    rfl
  rw [hd]
  simpa using hf

/-- The reverse-scan of `_splitparams` decomposes the path. -/
theorem revsplit_decomp (pa : Chars) :
    (pa.reverse.dropWhile (fun c => c != '/')).reverse ++
      (pa.reverse.takeWhile (fun c => c != '/')).reverse = pa := by
  rw [← List.reverse_append, List.takeWhile_append_dropWhile, List.reverse_reverse]

/-- A path containing `/` has a slash-terminated directory part. -/
theorem dropWhile_slash_head (l : Chars) (h : '/' ∈ l) :
    ∃ r2, l.reverse.dropWhile (fun c => c != '/') = '/' :: r2 := by
  cases hd : l.reverse.dropWhile (fun c => c != '/') with
  | nil =>
    exfalso
    have := List.dropWhile_eq_nil_iff.mp hd '/' (List.mem_reverse.mpr h)
    simp at this
  | cons c r2 =>
    have hc := dropWhile_head_false _ c r2 hd
    have hcs : c = '/' := by simpa using hc
    subst hcs
    exact ⟨r2, rfl⟩

/-- The last path segment contains no slash. -/
theorem slash_not_mem_tl (pa : Chars) :
    '/' ∉ (pa.reverse.takeWhile (fun c => c != '/')).reverse := by
  intro hm
  exact not_mem_takeWhile_ne '/' pa.reverse (List.mem_reverse.mp hm)

/-- The last path segment is made of characters of the path. -/
theorem tl_subset (pa : Chars) :
    (pa.reverse.takeWhile (fun c => c != '/')).reverse ⊆ pa := by
  intro c hc
  exact List.mem_reverse.mp ((List.takeWhile_sublist _).subset (List.mem_reverse.mp hc))

/-- Reverse-scanning a slash-terminated directory part followed by a
slash-free segment recovers exactly the two parts. -/
theorem revsplit_append (pre y r2 : Chars) (hpre : pre.reverse = '/' :: r2)
    (hy : '/' ∉ y) :
    ((pre ++ y).reverse.dropWhile (fun c => c != '/')).reverse = pre ∧
    ((pre ++ y).reverse.takeWhile (fun c => c != '/')).reverse = y := by
  have hally : ∀ c ∈ y.reverse, (c != '/') = true := fun c hc =>
    bne_iff_ne.mpr fun he => hy (he ▸ List.mem_reverse.mp hc)
  constructor
  · rw [List.reverse_append, dropWhile_all_append _ _ hally, hpre, List.dropWhile_cons,
      if_neg (by simp)]
    rw [← hpre, List.reverse_reverse]
  · rw [List.reverse_append, takeWhile_all_append _ _ hally, hpre, List.takeWhile_cons,
      if_neg (by simp)]
    simp

/-- Splitting a directory part plus a clean last segment finds no params. -/
theorem splitParams_pre_keep (pre keep r2 : Chars) (hpre : pre.reverse = '/' :: r2)
    (hk1 : ';' ∉ keep) (hk2 : '/' ∉ keep) :
    splitParams (pre ++ keep) = (pre ++ keep, []) := by
  have hslash : (pre ++ keep).contains '/' = true := by
    have hm : '/' ∈ pre := List.mem_reverse.mp (by rw [hpre]; exact List.mem_cons_self _ _)
    simp [hm]
  obtain ⟨hdrop, htake⟩ := revsplit_append pre keep r2 hpre hk2
  simp only [splitParams]
  rw [if_pos hslash, htake, if_neg (fun hx => hk1 (by simpa using hx))]

/-- A semicolon-free path splits off no params. -/
theorem splitParams_nosemi (pa : Chars) (h : ';' ∉ pa) : splitParams pa = (pa, []) := by
  simp only [splitParams]
  split
  next hsl =>
    rw [if_neg]
    intro hk
    have hm : ';' ∈ (pa.reverse.takeWhile (fun c => c != '/')).reverse := by simpa using hk
    exact h (tl_subset pa hm)
  next hsl =>
    have hdw : pa.dropWhile (fun c => c != ';') = [] :=
      dropWhile_eq_nil_of_takeWhile_self pa (takeWhile_ne_eq_self ';' pa h)
    rw [takeWhile_ne_eq_self ';' pa h, hdw]
    rfl

/-- The params stage is inert on a semicolon-free path. -/
theorem paramsSplit_nosemi (s pa : Chars) (h : ';' ∉ pa) : paramsSplit s pa = (pa, []) := by
  unfold paramsSplit
  split
  next hk => exact (h (by simpa using ((Bool.and_eq_true _ _).mp hk).2)).elim
  next hk => rfl

/-- The params stage is inert whenever the raw split is. -/
theorem paramsSplit_self (s pa : Chars) (h : splitParams pa = (pa, [])) :
    paramsSplit s pa = (pa, []) := by
  unfold paramsSplit
  split
  · exact h
  · rfl

/-- Non-empty params rejoin with `;` to the original path. -/
theorem splitParams_rejoin (pa : Chars) (h2 : (splitParams pa).2 ≠ []) :
    (splitParams pa).1 ++ ';' :: (splitParams pa).2 = pa := by
  revert h2
  simp only [splitParams]
  split
  next hslash =>
    split
    next hsemi =>
      intro h2
      have hm : ';' ∈ (pa.reverse.takeWhile (fun c => c != '/')).reverse := by simpa using hsemi
      rw [List.append_assoc, ← dropWhile_decomp ';' _ hm]
      exact revsplit_decomp pa
    next hsemi =>
      intro h2
      exact absurd rfl h2
  next hslash =>
    intro h2
    have hne : pa.dropWhile (fun c => c != ';') ≠ [] := by
      intro hk
      rw [hk] at h2
      exact h2 rfl
    have hm : ';' ∈ pa := by
      by_contra hk
      apply hne
      rw [List.dropWhile_eq_nil_iff]
      intro x hx
      exact bne_iff_ne.mpr fun he => hk (he ▸ hx)
    exact (dropWhile_decomp ';' pa hm).symm

/-- The pre-params path is a prefix of the input path. -/
theorem splitParams_fst_prefix (pa : Chars) : (splitParams pa).1 <+: pa := by
  simp only [splitParams]
  split
  next hslash =>
    split
    next hsemi =>
      have h1 : ((pa.reverse.takeWhile (fun c => c != '/')).reverse).takeWhile
            (fun c => c != ';') <+:
          (pa.reverse.takeWhile (fun c => c != '/')).reverse := List.takeWhile_prefix _
      have h2 := (List.prefix_append_right_inj
        ((pa.reverse.dropWhile (fun c => c != '/')).reverse)).mpr h1
      rw [revsplit_decomp pa] at h2
      exact h2
    next hsemi => exact List.prefix_refl pa
  next hslash => exact List.takeWhile_prefix _

/-- The params are made of characters of the input path. -/
theorem splitParams_snd_subset (pa : Chars) : (splitParams pa).2 ⊆ pa := by
  simp only [splitParams]
  split
  next hslash =>
    split
    next hsemi =>
      intro c hc
      exact tl_subset pa ((List.dropWhile_sublist _).subset (List.drop_subset 1 _ hc))
    next hsemi => exact fun c hc => absurd hc (List.not_mem_nil c)
  next hslash =>
    exact fun c hc => (List.dropWhile_sublist _).subset (List.drop_subset 1 _ hc)

/-- The pre-params path of the params stage is a prefix of the input. -/
theorem paramsSplit_fst_prefix (s pa : Chars) : (paramsSplit s pa).1 <+: pa := by
  unfold paramsSplit
  split
  · exact splitParams_fst_prefix pa
  · exact List.prefix_refl pa

/-- The params of the params stage are characters of the input. -/
theorem paramsSplit_snd_subset (s pa : Chars) : (paramsSplit s pa).2 ⊆ pa := by
  unfold paramsSplit
  split
  · exact splitParams_snd_subset pa
  · exact fun c hc => absurd hc (List.not_mem_nil c)

/-- Rebuilding the path from the params split and splitting again is the
identity: the params stage of `urlparse` round-trips through `urlunparse`'s
path reconstruction. -/
theorem paramsSplit_roundtrip (s pa0 : Chars) :
    paramsSplit s
      (if (paramsSplit s pa0).2 ≠ [] then (paramsSplit s pa0).1 ++ ';' :: (paramsSplit s pa0).2
       else (paramsSplit s pa0).1) = paramsSplit s pa0 := by
  by_cases hpr : (paramsSplit s pa0).2 = []
  · rw [if_neg (fun hk => hk hpr)]
    by_cases hcond : (usesParams.any (fun w => s == w.toList) && pa0.contains ';') = true
    · have he : paramsSplit s pa0 = splitParams pa0 := by
        unfold paramsSplit
        rw [if_pos hcond]
      rw [he] at hpr ⊢
      by_cases hsl : pa0.contains '/' = true
      · by_cases hts :
            ((pa0.reverse.takeWhile (fun c => c != '/')).reverse).contains ';' = true
        · have hsp : splitParams pa0 =
              ((pa0.reverse.dropWhile (fun c => c != '/')).reverse ++
                ((pa0.reverse.takeWhile (fun c => c != '/')).reverse).takeWhile
                  (fun c => c != ';'),
               (((pa0.reverse.takeWhile (fun c => c != '/')).reverse).dropWhile
                  (fun c => c != ';')).drop 1) := by
            simp only [splitParams]
            rw [if_pos hsl, if_pos hts]
          rcases dropWhile_slash_head pa0 (by simpa using hsl) with ⟨r2, hr2⟩
          have hpre : ((pa0.reverse.dropWhile (fun c => c != '/')).reverse).reverse =
              '/' :: r2 := by
            rw [List.reverse_reverse]
            exact hr2
          have hk1 : ';' ∉ ((pa0.reverse.takeWhile (fun c => c != '/')).reverse).takeWhile
              (fun c => c != ';') := not_mem_takeWhile_ne ';' _
          have hk2 : '/' ∉ ((pa0.reverse.takeWhile (fun c => c != '/')).reverse).takeWhile
              (fun c => c != ';') := by
            intro hm
            exact slash_not_mem_tl pa0 ((List.takeWhile_sublist _).subset hm)
          rw [hsp] at hpr ⊢
          have hprr : (((pa0.reverse.takeWhile (fun c => c != '/')).reverse).dropWhile
              (fun c => c != ';')).drop 1 = [] := hpr
          rw [hprr]
          exact paramsSplit_self s _ (splitParams_pre_keep _ _ r2 hpre hk1 hk2)
        · have hsp : splitParams pa0 = (pa0, []) := by
            simp only [splitParams]
            rw [if_pos hsl, if_neg hts]
          rw [hsp]
          exact paramsSplit_self s pa0 hsp
      · have hsp : splitParams pa0 =
            (pa0.takeWhile (fun c => c != ';'),
             (pa0.dropWhile (fun c => c != ';')).drop 1) := by
          simp only [splitParams]
          rw [if_neg hsl]
        rw [hsp] at hpr ⊢
        have hprr : (pa0.dropWhile (fun c => c != ';')).drop 1 = [] := hpr
        rw [hprr]
        exact paramsSplit_nosemi s _ (not_mem_takeWhile_ne ';' pa0)
    · have he : paramsSplit s pa0 = (pa0, []) := by
        unfold paramsSplit
        rw [if_neg hcond]
      rw [he]
      exact he
  · rw [if_pos hpr]
    by_cases hcond : (usesParams.any (fun w => s == w.toList) && pa0.contains ';') = true
    · have he : paramsSplit s pa0 = splitParams pa0 := by
        unfold paramsSplit
        rw [if_pos hcond]
      rw [he] at hpr ⊢
      rw [splitParams_rejoin pa0 hpr]
      exact he
    · have he : paramsSplit s pa0 = (pa0, []) := by
        unfold paramsSplit
        rw [if_neg hcond]
      rw [he] at hpr
      exact absurd rfl hpr

/-- A two-character take determines the one-character take. -/
theorem take_two_head (l : Chars) (h : l.take 2 = ['/', '/']) : l.take 1 = ['/'] := by
  cases l with
  | nil => simp at h
  | cons c t =>
    simp only [List.take_succ_cons] at h ⊢
    injection h with h1 h2
    rw [h1]
    simp

/-- A singleton take exposes the head. -/
theorem take_one_eq (l : Chars) (c : Char) (h : l.take 1 = [c]) : ∃ t, l = c :: t := by
  cases l with
  | nil => simp at h
  | cons a t =>
    simp only [List.take_succ_cons, List.take_zero] at h
    injection h with h1 h2
    exact ⟨t, by rw [h1]⟩

/-- A non-empty prefix shares the head. -/
theorem prefix_take_one (a b : Chars) (hpre : a <+: b) (ha : a ≠ []) :
    a.take 1 = b.take 1 := by
  obtain ⟨r, hr⟩ := hpre
  rw [← hr]
  rw [List.take_append_of_le_length]
  rcases a with _ | ⟨c, t⟩
  · exact absurd rfl ha
  · simp

/-- Taking one character does not look past a non-empty prefix. -/
theorem take_one_append (a x : Chars) (ha : a ≠ []) : (a ++ x).take 1 = a.take 1 := by
  rw [List.take_append_of_le_length]
  rcases a with _ | ⟨c, t⟩
  · exact absurd rfl ha
  · simp

/-- The pre-query part keeps a head the query scan accepts. -/
theorem splitQuery_fst_cons_pass (c : Char) (t : Chars) (hc : (c != '?') = true) :
    ∃ t2, (splitQuery (c :: t)).1 = c :: t2 := by
  unfold splitQuery
  split
  · exact ⟨t.takeWhile (fun x => x != '?'), by rw [List.takeWhile_cons, if_pos hc]⟩
  · exact ⟨t, rfl⟩

/-- A query-leading remainder has an empty pre-query part. -/
theorem splitQuery_quest (t : Chars) : splitQuery ('?' :: t) = ([], t) := by
  unfold splitQuery
  rw [if_pos (by simp)]
  rw [List.takeWhile_cons, if_neg (by simp), List.dropWhile_cons, if_neg (by simp)]
  rfl

/-- A slash-containing path keeps a non-empty pre-params part. -/
theorem splitParams_fst_ne_nil_of_slash (pa : Chars) (h : '/' ∈ pa) :
    (splitParams pa).1 ≠ [] := by
  simp only [splitParams]
  split
  next hsl =>
    split
    next hsemi =>
      intro hk
      rcases List.append_eq_nil.mp hk with ⟨h1, _⟩
      rcases dropWhile_slash_head pa h with ⟨r2, hr2⟩
      rw [hr2] at h1
      simp at h1
    next hsemi => exact List.ne_nil_of_mem h
  next hsl => exact absurd (by simpa using h) hsl

/-- The params stage keeps a non-empty path when a slash is present. -/
theorem paramsSplit_fst_ne_nil (s pa : Chars) (h : '/' ∈ pa) :
    (paramsSplit s pa).1 ≠ [] := by
  unfold paramsSplit
  split
  · exact splitParams_fst_ne_nil_of_slash pa h
  · exact List.ne_nil_of_mem h

/-- The netloc scan stops immediately on an empty or boundary-headed list. -/
theorem takeWhile_netloc_nil (l : Chars)
    (h : l = [] ∨ ∃ c t, l = c :: t ∧ isNetlocEnd c = true) :
    l.takeWhile (fun c => !isNetlocEnd c) = [] := by
  rcases h with h | ⟨c, t, hl, hc⟩
  · rw [h]
    rfl
  · rw [hl, List.takeWhile_cons, if_neg (by simp [hc])]

/-- Appending a query part cannot create a leading double slash. -/
theorem take2_append_ne (PW qp : Chars)
    (hnb : ¬(PW ≠ [] ∧ PW.take 2 = ['/', '/']))
    (hqp : qp = [] ∨ ∃ t, qp = '?' :: t) :
    ¬(PW ++ qp).take 2 = ['/', '/'] := by
  intro hk
  rcases PW with _ | ⟨c, _ | ⟨d, t2⟩⟩
  · rcases hqp with h | ⟨t, h⟩ <;> subst h <;> simp at hk
  · rcases hqp with h | ⟨t, h⟩ <;> subst h <;> simp at hk
  · apply hnb
    refine ⟨by simp, ?_⟩
    simpa using hk

/-- Core round-trip of `urlparse` through `urlunparse`: reparsing the
rebuild of a successful fragment-free parse recovers every component. -/
theorem urlparse_roundtrip_core (b S R1 N R2 PA0 Q PA PR : Chars)
    (hb : '#' ∉ b)
    (hS : splitScheme b = (S, R1))
    (hN : splitNetloc R1 = (N, R2))
    (hbr : bracketMismatch N = false)
    (hQ : splitQuery R2 = (PA0, Q))
    (hP : paramsSplit S PA0 = (PA, PR)) :
    urlparseL (urlunparseL S N PA PR Q []) = .ok ⟨S, N, PA, PR, Q, []⟩ := by
  have hR1b : R1 ⊆ b := by
    have h0 := splitScheme_rest_subset b
    rw [hS] at h0
    exact h0
  have hR2R1 : R2 ⊆ R1 := by
    have h0 := splitNetloc_rest_subset R1
    rw [hN] at h0
    exact h0
  have hbR1 : '#' ∉ R1 := fun h => hb (hR1b h)
  have hbR2 : '#' ∉ R2 := fun h => hbR1 (hR2R1 h)
  have hPA0pre : PA0 <+: R2 := by
    have h0 := splitQuery_fst_prefix R2
    rw [hQ] at h0
    exact h0
  have hQsub : Q ⊆ R2 := by
    have h0 := splitQuery_snd_subset R2
    rw [hQ] at h0
    exact h0
  have hqPA0 : '?' ∉ PA0 := by
    have h0 := splitQuery_fst_no_q R2
    rw [hQ] at h0
    exact h0
  have hbPA0 : '#' ∉ PA0 := fun h => hbR2 (hPA0pre.subset h)
  have hbQ : '#' ∉ Q := fun h => hbR2 (hQsub h)
  have hPApre : PA <+: PA0 := by
    have h0 := paramsSplit_fst_prefix S PA0
    rw [hP] at h0
    exact h0
  have hPRsub : PR ⊆ PA0 := by
    have h0 := paramsSplit_snd_subset S PA0
    rw [hP] at h0
    exact h0
  have hqPA : '?' ∉ PA := fun h => hqPA0 (hPApre.subset h)
  have hbPA : '#' ∉ PA := fun h => hbPA0 (hPApre.subset h)
  have hqPR : '?' ∉ PR := fun h => hqPA0 (hPRsub h)
  have hbPR : '#' ∉ PR := fun h => hbPA0 (hPRsub h)
  have hNsafe : ∀ c ∈ N, isNetlocEnd c = false := by
    have h0 := splitNetloc_fst_safe R1
    rw [hN] at h0
    exact h0
  have hSp : S = [] ∨ (schemeValid S = true ∧ lowerL S = S) := by
    have h0 := splitScheme_fst_props b
    rw [hS] at h0
    exact h0
  obtain ⟨PW, hPWdef⟩ : ∃ PW, (if PR ≠ [] then PA ++ ';' :: PR else PA) = PW := ⟨_, rfl⟩
  obtain ⟨qpart, hqdef⟩ : ∃ q2, (if Q ≠ [] then '?' :: Q else ([] : Chars)) = q2 := ⟨_, rfl⟩
  have hqshape : qpart = [] ∨ qpart = '?' :: Q := by
    by_cases hq : Q = []
    · left
      rw [← hqdef, if_neg (fun hk => hk hq)]
    · right
      rw [← hqdef, if_pos hq]
  have hbPW : '#' ∉ PW := by
    rw [← hPWdef]
    by_cases hpr : PR = []
    · rw [if_neg (fun hk => hk hpr)]
      exact hbPA
    · rw [if_pos hpr]
      intro hm
      rcases List.mem_append.mp hm with hm | hm
      · exact hbPA hm
      · rcases List.mem_cons.mp hm with hm | hm
        · exact absurd hm (by decide)
        · exact hbPR hm
  have hqPW : '?' ∉ PW := by
    rw [← hPWdef]
    by_cases hpr : PR = []
    · rw [if_neg (fun hk => hk hpr)]
      exact hqPA
    · rw [if_pos hpr]
      intro hm
      rcases List.mem_append.mp hm with hm | hm
      · exact hqPA hm
      · rcases List.mem_cons.mp hm with hm | hm
        · exact absurd hm (by decide)
        · exact hqPR hm
  have hbU : '#' ∉ PW ++ qpart := by
    intro hm
    rcases List.mem_append.mp hm with hm | hm
    · exact hbPW hm
    · rcases hqshape with hqn | hqe
      · rw [hqn] at hm
        exact absurd hm (List.not_mem_nil _)
      · rw [hqe] at hm
        rcases List.mem_cons.mp hm with hm | hm
        · exact absurd hm (by decide)
        · exact hbQ hm
  have hquery : splitQuery (PW ++ qpart) = (PW, Q) := by
    rcases hqshape with hqn | hqe
    · have hqnil : Q = [] := by
        by_contra hk
        rw [← hqdef, if_pos hk] at hqn
        cases hqn
      rw [hqn, List.append_nil, splitQuery_no_q PW hqPW, hqnil]
    · rw [hqe]
      exact splitQuery_build PW Q hqPW
  have hfrag : splitFragment (PW ++ qpart) = (PW ++ qpart, []) := splitFragment_no_hash _ hbU
  have hpar : paramsSplit S PW = (PA, PR) := by
    have h0 := paramsSplit_roundtrip S PA0
    rw [hP] at h0
    rw [← hPWdef]
    exact h0
  have hPWD : PW = [] ∨ PW.take 1 = ['/'] ∨ (R2 = R1 ∧ N = []) := by
    by_cases hnl : R1.take 2 = ['/', '/']
    · have hprops0 := splitNetloc_snd_props R1 hnl
      rw [hN] at hprops0
      have hprops : R2 = [] ∨ ∃ c t, R2 = c :: t ∧ isNetlocEnd c = true := hprops0
      have hPA0nil_case : PA0 = [] → PW = [] := by
        intro hPA0
        have hPAnil : PA = [] := by
          have h0 := hPApre
          rw [hPA0] at h0
          exact List.prefix_nil.mp h0
        have hPRnil : PR = [] := by
          have h0 := hPRsub
          rw [hPA0] at h0
          exact List.eq_nil_iff_forall_not_mem.mpr fun x hx => List.not_mem_nil x (h0 hx)
        rw [← hPWdef, if_neg (fun hk => hk hPRnil), hPAnil]
      rcases hprops with hR2nil | ⟨c, t, hR2eq, hcend⟩
      · left
        apply hPA0nil_case
        have hq0 : splitQuery R2 = (R2, []) := by
          rw [hR2nil]
          exact splitQuery_no_q [] (List.not_mem_nil _)
        rw [hQ] at hq0
        have hpa0r2 : PA0 = R2 := congrArg Prod.fst hq0
        exact hpa0r2.trans hR2nil
      · have hctri : c = '/' ∨ c = '?' ∨ c = '#' := by
          have h0 := hcend
          simp [isNetlocEnd] at h0
          exact or_assoc.mp h0
        rcases hctri with hc | hc | hc
        · subst hc
          right
          left
          rw [hR2eq] at hQ
          obtain ⟨t2, ht2⟩ := splitQuery_fst_cons_pass '/' t (by decide)
          rw [hQ] at ht2
          have hPA0eq : PA0 = '/' :: t2 := ht2
          have hPAne : PA ≠ [] := by
            have h0 := paramsSplit_fst_ne_nil S PA0
              (by rw [hPA0eq]; exact List.mem_cons_self _ _)
            rw [hP] at h0
            exact h0
          have hPAh : PA.take 1 = ['/'] := by
            rw [prefix_take_one PA PA0 hPApre hPAne, hPA0eq]
            simp
          rw [← hPWdef]
          by_cases hpr : PR = []
          · rw [if_neg (fun hk => hk hpr)]
            exact hPAh
          · rw [if_pos hpr, take_one_append PA (';' :: PR) hPAne]
            exact hPAh
        · subst hc
          left
          apply hPA0nil_case
          rw [hR2eq] at hQ
          rw [splitQuery_quest t] at hQ
          exact (congrArg Prod.fst hQ).symm
        · subst hc
          exact absurd (by rw [hR2eq]; exact List.mem_cons_self _ _) hbR2
    · right
      right
      have h0 := splitNetloc_nosplit R1 hnl
      rw [hN] at h0
      exact ⟨congrArg Prod.snd h0, congrArg Prod.fst h0⟩
  by_cases hUB : N ≠ [] ∨ (PW ≠ [] ∧ PW.take 2 = ['/', '/'])
  · -- the rebuild emits the double slash
    have hPW1 : PW = [] ∨ PW.take 1 = ['/'] := by
      rcases hPWD with h | h | ⟨hR2R1e, hNnil⟩
      · exact Or.inl h
      · exact Or.inr h
      · rcases hUB with hNe | ⟨hPWne, hPW2⟩
        · exact absurd hNnil hNe
        · exact Or.inr (take_two_head PW hPW2)
    have hstop : (PW ++ qpart).takeWhile (fun c => !isNetlocEnd c) = [] := by
      rcases hPW1 with hPWnil | hPWh
      · rw [hPWnil, List.nil_append]
        apply takeWhile_netloc_nil
        rcases hqshape with h | h
        · exact Or.inl h
        · exact Or.inr ⟨'?', Q, h, by decide⟩
      · obtain ⟨pw2, hpw2⟩ := take_one_eq PW '/' hPWh
        rw [hpw2]
        apply takeWhile_netloc_nil
        exact Or.inr ⟨'/', pw2 ++ qpart, by simp, by decide⟩
    have hnet : splitNetloc ('/' :: '/' :: (N ++ (PW ++ qpart))) = (N, PW ++ qpart) :=
      splitNetloc_build N (PW ++ qpart) hNsafe hstop
    have hprep : (if PW ≠ [] ∧ PW.take 1 ≠ ['/'] then '/' :: PW else PW) = PW := by
      rcases hPW1 with h | h
      · rw [if_neg (fun hk => hk.1 h)]
      · rw [if_neg (fun hk => hk.2 h)]
    have hU : urlunparseL S N PA PR Q [] =
        (if S ≠ [] then S ++ ':' :: (('/' :: '/' :: N) ++ PW) else ('/' :: '/' :: N) ++ PW)
          ++ qpart := by
      simp only [urlunparseL, urlunsplitL]
      rw [hPWdef]
      rw [if_neg (show ¬(([] : Chars) ≠ []) from fun hk => hk rfl)]
      rw [if_pos hUB, hprep]
      rw [← hqdef]
      by_cases hq : Q = []
      · rw [if_neg (show ¬(Q ≠ []) from fun hk => hk hq),
          if_neg (show ¬(Q ≠ []) from fun hk => hk hq), List.append_nil]
      · rw [if_pos (show Q ≠ [] from hq), if_pos (show Q ≠ [] from hq)]
    rw [hU]
    rcases hSp with hSnil | ⟨hv, hl⟩
    · subst hSnil
      rw [if_neg (fun hk => hk rfl)]
      rw [show (('/' :: '/' :: N) ++ PW) ++ qpart = '/' :: '/' :: (N ++ (PW ++ qpart))
        by simp]
      have he1 : splitScheme ('/' :: '/' :: (N ++ (PW ++ qpart))) =
          ([], '/' :: '/' :: (N ++ (PW ++ qpart))) :=
        splitScheme_cons_not_alpha '/' _ (by decide)
      simp only [urlparseL, he1, hnet, hfrag, hquery, hpar, hbr]
      rfl
    · have hSne : S ≠ [] := by
        intro hk
        rw [hk] at hv
        exact absurd hv (by decide)
      rw [if_pos hSne]
      rw [show (S ++ ':' :: (('/' :: '/' :: N) ++ PW)) ++ qpart =
          S ++ ':' :: ('/' :: '/' :: (N ++ (PW ++ qpart))) by simp]
      have he1 : splitScheme (S ++ ':' :: ('/' :: '/' :: (N ++ (PW ++ qpart)))) =
          (S, '/' :: '/' :: (N ++ (PW ++ qpart))) :=
        splitScheme_valid_prefix S _ hv hl
      simp only [urlparseL, he1, hnet, hfrag, hquery, hpar, hbr]
      rfl
  · -- the rebuild keeps the bare path
    have hNnil : N = [] := by
      by_contra hk
      exact hUB (Or.inl hk)
    have hnb : ¬(PW ≠ [] ∧ PW.take 2 = ['/', '/']) := fun hk => hUB (Or.inr hk)
    subst hNnil
    have htk2 : ¬(PW ++ qpart).take 2 = ['/', '/'] :=
      take2_append_ne PW qpart hnb (hqshape.imp id fun h => ⟨Q, h⟩)
    have hnet2 : splitNetloc (PW ++ qpart) = ([], PW ++ qpart) := splitNetloc_nosplit _ htk2
    have hU : urlunparseL S [] PA PR Q [] =
        (if S ≠ [] then S ++ ':' :: PW else PW) ++ qpart := by
      simp only [urlunparseL, urlunsplitL]
      rw [hPWdef]
      rw [if_neg (show ¬(([] : Chars) ≠ []) from fun hk => hk rfl)]
      rw [if_neg hUB]
      rw [← hqdef]
      by_cases hq : Q = []
      · rw [if_neg (show ¬(Q ≠ []) from fun hk => hk hq),
          if_neg (show ¬(Q ≠ []) from fun hk => hk hq), List.append_nil]
      · rw [if_pos (show Q ≠ [] from hq), if_pos (show Q ≠ [] from hq)]
    rw [hU]
    rcases hSp with hSnil | ⟨hv, hl⟩
    · subst hSnil
      rw [if_neg (fun hk => hk rfl)]
      have he1 : splitScheme (PW ++ qpart) = ([], PW ++ qpart) := by
        rcases hPWD with hPWnil | hPWh | ⟨hR2R1e, hNe⟩
        · rw [hPWnil, List.nil_append]
          rcases hqshape with h | h
          · rw [h]
            exact splitScheme_no_colon [] (List.not_mem_nil _)
          · rw [h]
            exact splitScheme_cons_not_alpha '?' Q (by decide)
        · obtain ⟨pw2, hpw2⟩ := take_one_eq PW '/' hPWh
          rw [hpw2]
          rw [show ('/' :: pw2) ++ qpart = '/' :: (pw2 ++ qpart) from rfl]
          exact splitScheme_cons_not_alpha '/' _ (by decide)
        · have h1 : (splitScheme b).1 = [] := by rw [hS]
          have hR1eq : R1 = b := by
            have h2 := splitScheme_snd_of_fst_nil b h1
            rw [hS] at h2
            exact h2
          have hR2b : R2 = b := hR2R1e.trans hR1eq
          by_cases hcol : ':' ∈ PW ++ qpart
          · have hPA0b : PA0 <+: b := hR2b ▸ hPA0pre
            have hPAb : PA <+: b := hPApre.trans hPA0b
            by_cases hcPA : ':' ∈ PA
            · obtain ⟨rb, hrb⟩ := hPAb
              have hcolb : ':' ∈ b := by
                rw [← hrb]
                exact List.mem_append_left rb hcPA
              have hsv : schemeValid (b.takeWhile (fun c => c != ':')) = false :=
                splitScheme_invalid_of_nosplit b hcolb h1
              have hstopPA : ∃ c ∈ PA, (c != ':') = false := ⟨':', hcPA, by simp⟩
              have hcb : b.takeWhile (fun c => c != ':') =
                  PA.takeWhile (fun c => c != ':') := by
                rw [← hrb]
                exact takeWhile_stop_append PA rb hstopPA
              obtain ⟨X, hX⟩ : ∃ X, PW ++ qpart = PA ++ X := by
                rw [← hPWdef]
                by_cases hpr : PR = []
                · rw [if_neg (fun hk => hk hpr)]
                  exact ⟨qpart, rfl⟩
                · rw [if_pos hpr]
                  exact ⟨';' :: PR ++ qpart, by simp⟩
              apply splitScheme_invalid
              rw [hX, takeWhile_stop_append PA X hstopPA, ← hcb]
              exact hsv
            · have hallPA : ∀ c ∈ PA, (c != ':') = true := fun c hc =>
                bne_iff_ne.mpr fun he => hcPA (he ▸ hc)
              by_cases hpr : PR = []
              · have hPWPA : PW = PA := by
                  rw [← hPWdef, if_neg (fun hk => hk hpr)]
                have hcq : ':' ∈ qpart := by
                  rcases List.mem_append.mp hcol with h | h
                  · rw [hPWPA] at h
                    exact absurd h hcPA
                  · exact h
                have hqe : qpart = '?' :: Q := by
                  rcases hqshape with h | h
                  · rw [h] at hcq
                    exact absurd hcq (List.not_mem_nil _)
                  · exact h
                apply splitScheme_invalid
                rw [hPWPA, hqe, takeWhile_all_append PA _ hallPA, List.takeWhile_cons,
                  if_pos (by decide)]
                exact schemeValid_false_of_bad _ '?'
                  (List.mem_append_right _ (List.mem_cons_self _ _)) (by decide)
              · apply splitScheme_invalid
                rw [← hPWdef, if_pos hpr]
                rw [show (PA ++ ';' :: PR) ++ qpart = PA ++ ';' :: (PR ++ qpart) by simp]
                rw [takeWhile_all_append PA _ hallPA, List.takeWhile_cons, if_pos (by decide)]
                exact schemeValid_false_of_bad _ ';'
                  (List.mem_append_right _ (List.mem_cons_self _ _)) (by decide)
          · exact splitScheme_no_colon _ hcol
      simp only [urlparseL, he1, hnet2, hfrag, hquery, hpar, hbr]
      rfl
    · have hSne : S ≠ [] := by
        intro hk
        rw [hk] at hv
        exact absurd hv (by decide)
      rw [if_pos hSne]
      rw [show (S ++ ':' :: PW) ++ qpart = S ++ ':' :: (PW ++ qpart) by simp]
      have he1 : splitScheme (S ++ ':' :: (PW ++ qpart)) = (S, PW ++ qpart) :=
        splitScheme_valid_prefix S _ hv hl
      simp only [urlparseL, he1, hnet2, hfrag, hquery, hpar, hbr]
      rfl

/-- Reparsing the fragment-free `urlunparse` rebuild of a successful parse
of a hash-free URL returns exactly the original parse result. -/
theorem urlparse_roundtrip (b : Chars) (hb : '#' ∉ b) (p : ParsedUrl)
    (hp : urlparseL b = .ok p) :
    urlparseL (urlunparseL p.scheme p.netloc p.path p.params p.query []) = .ok p := by
  have h9 : '#' ∉ (splitNetloc (splitScheme b).2).2 := fun h =>
    hb (splitScheme_rest_subset b (splitNetloc_rest_subset _ h))
  have hfr : splitFragment (splitNetloc (splitScheme b).2).2 =
      ((splitNetloc (splitScheme b).2).2, []) := splitFragment_no_hash _ h9
  have hbr : bracketMismatch (splitNetloc (splitScheme b).2).1 = false := by
    by_contra hT
    have hT2 : bracketMismatch (splitNetloc (splitScheme b).2).1 = true :=
      Bool.not_eq_false _ ▸ hT
    simp only [urlparseL] at hp
    rw [if_pos hT2] at hp
    cases hp
  simp only [urlparseL] at hp
  rw [if_neg (by simp [hbr])] at hp
  simp only [hfr] at hp
  injection hp with hpe
  subst hpe
  exact urlparse_roundtrip_core b _ _ _ _ _ _ _ _ hb rfl rfl hbr rfl rfl

/-- A hash-free URL parses with an empty fragment component. -/
theorem urlparseL_fragment_nil (b : Chars) (hb : '#' ∉ b) (p : ParsedUrl)
    (hp : urlparseL b = .ok p) : p.fragment = [] := by
  have h9 : '#' ∉ (splitNetloc (splitScheme b).2).2 := fun h =>
    hb (splitScheme_rest_subset b (splitNetloc_rest_subset _ h))
  have hfr : splitFragment (splitNetloc (splitScheme b).2).2 =
      ((splitNetloc (splitScheme b).2).2, []) := splitFragment_no_hash _ h9
  simp only [urlparseL] at hp
  split at hp
  · cases hp
  · simp only [hfr] at hp
    injection hp with hpe
    rw [← hpe]

/-- `is_valid` ignores an appended fragment: the defragment-then-parse
pipeline gives the same verdict (and the same error) with and without it. -/
theorem is_validL_frag (b f : Chars) (hb : '#' ∉ b) :
    is_validL (b ++ '#' :: f) = is_validL b := by
  have hcb : ¬b.contains '#' = true := fun hk => hb (by simpa using hk)
  unfold is_validL urldefragL
  rw [if_pos (by simp), if_neg hcb]
  rw [urlparseL_frag b f hb]
  cases hpb : urlparseL b with
  | error e =>
    dsimp only [Except.map]
    rw [hpb]
  | ok p =>
    have hrt := urlparse_roundtrip b hb p hpb
    dsimp only [Except.map]
    rw [hrt, hpb]

/-! ## Claim C5 -/

/-- Claim C5's record half fails on the raw program: the two URLs differ
only in their fragment, but `urldefrag` rebuilds (and normalizes) only the
fragment-carrying one, so they defragment to different strings and
recording the first does not make the second a duplicate — the second
call inserts a second entry into `seen`. -/
theorem c5_counterexample :
    "HTTP://www.ics.uci.edu/x#f".toList =
      "HTTP://www.ics.uci.edu/x".toList ++ '#' :: "f".toList ∧
    defragment_url "HTTP://www.ics.uci.edu/x" = .ok "HTTP://www.ics.uci.edu/x" ∧
    defragment_url "HTTP://www.ics.uci.edu/x#f" = .ok "http://www.ics.uci.edu/x" ∧
    stepState id []
        (stepState id [] initState
          ⟨"HTTP://www.ics.uci.edu/x", ⟨200, some "aaaa", "text/html"⟩⟩)
        ⟨"HTTP://www.ics.uci.edu/x#f", ⟨200, some "bbbb", "text/html"⟩⟩ ≠
      stepState id [] initState
        ⟨"HTTP://www.ics.uci.edu/x", ⟨200, some "aaaa", "text/html"⟩⟩ := by
  refine ⟨by decide, by decide, by decide, by decide⟩

/-- Claim C5 (amended): `is_valid` genuinely ignores fragments — appending
`#fragment` to any hash-free URL changes neither its verdict nor its error
behaviour, so any two URLs differing only in fragment get the same result.
`record`, however, treats two URLs as the same entity exactly when their
`defragment_url` results agree (which fragment-stripping alone does not
guarantee, since the rebuild normalizes the fragment-carrying URL): when
both URLs defragment to the same string and the first was recorded with
non-falsy content, the second call is a no-op. -/
theorem c5_fragment_equivalence :
    (∀ b f : Chars, '#' ∉ b → is_validL (b ++ '#' :: f) = is_validL b) ∧
    (∀ (gv : String → String) (sw : List String) (u1 u2 d c1 : String)
       (st1 : Nat) (ct1 : String) (resp2 : Response) (s s' : AnalyticsState),
       defragment_url u1 = .ok d → defragment_url u2 = .ok d → c1 ≠ "" →
       record_page gv sw u1 ⟨st1, some c1, ct1⟩ s = .ok s' →
       record_page gv sw u2 resp2 s' = .ok s') := by
  constructor
  · exact fun b f hb => is_validL_frag b f hb
  · intro gv sw u1 u2 d c1 st1 ct1 resp2 s s' hd1 hd2 hne h1
    exact record_page_dup gv sw u2 resp2 s' d hd2
      (record_page_mem gv sw u1 ⟨st1, some c1, ct1⟩ s s' d c1 hd1 rfl hne h1)

/-- Witness for the amended claim C5 at concrete inputs. -/
theorem c5_fragment_equivalence_witness :
    is_validL ("http://www.ics.uci.edu/q".toList ++ '#' :: "frag".toList) =
      is_validL "http://www.ics.uci.edu/q".toList ∧
    record_page id [] "http://www.ics.uci.edu/q#frag" ⟨200, some "zz", "text/html"⟩
        (stepState id [] initState
          ⟨"http://www.ics.uci.edu/q", ⟨200, some "aaaa", "text/html"⟩⟩) =
      .ok (stepState id [] initState
        ⟨"http://www.ics.uci.edu/q", ⟨200, some "aaaa", "text/html"⟩⟩) :=
  ⟨c5_fragment_equivalence.1 "http://www.ics.uci.edu/q".toList "frag".toList (by decide),
   c5_fragment_equivalence.2 id [] "http://www.ics.uci.edu/q" "http://www.ics.uci.edu/q#frag"
     "http://www.ics.uci.edu/q" "aaaa" 200 "text/html" ⟨200, some "zz", "text/html"⟩
     initState
     (stepState id [] initState
       ⟨"http://www.ics.uci.edu/q", ⟨200, some "aaaa", "text/html"⟩⟩)
     (by decide) (by decide) (by decide) (by decide)⟩

/-! ## Claim C9 -/

/-- Keys of `addSubdomain`: unchanged when the host exists, appended
otherwise. -/
theorem addSubdomain_keys (sp : List (String × Finset String)) (sub u : String) :
    (addSubdomain sp sub u).map Prod.fst = sp.map Prod.fst ∨
    ((addSubdomain sp sub u).map Prod.fst = sp.map Prod.fst ++ [sub] ∧
      sub ∉ sp.map Prod.fst) := by
  unfold addSubdomain
  by_cases hany : sp.any (fun p => p.1 == sub) = true
  · left
    rw [if_pos hany, List.map_map]
    refine List.map_congr_left fun p _ => ?_
    simp only [Function.comp_apply]
    by_cases hps : (p.1 == sub) = true
    · rw [if_pos hps]
    · rw [if_neg hps]
  · right
    rw [if_neg hany]
    refine ⟨by simp, fun hmem => hany ?_⟩
    rcases List.mem_map.mp hmem with ⟨p, hp, hfst⟩
    exact List.any_eq_true.mpr ⟨p, hp, by simp [hfst]⟩

/-- Entries of `addSubdomain sp sub u` are either old entries, an old
entry for `sub` with `u` inserted, or the fresh `(sub, {u})`. -/
theorem addSubdomain_entries (sp : List (String × Finset String)) (sub u : String)
    (p : String × Finset String) (hp : p ∈ addSubdomain sp sub u) :
    p ∈ sp ∨ (p.1 = sub ∧ ∃ S, p.2 = insert u S ∧ (sub, S) ∈ sp) ∨ p = (sub, {u}) := by
  unfold addSubdomain at hp
  by_cases hany : sp.any (fun q => q.1 == sub) = true
  · rw [if_pos hany] at hp
    rcases List.mem_map.mp hp with ⟨q, hq, hfq⟩
    by_cases hqs : (q.1 == sub) = true
    · rw [if_pos hqs] at hfq
      have hq1 : q.1 = sub := by simpa using hqs
      refine Or.inr (Or.inl ⟨hfq ▸ hq1, q.2, by rw [← hfq], ?_⟩)
      rw [← hq1]
      exact hq
    · rw [if_neg hqs] at hfq
      exact Or.inl (hfq ▸ hq)
  · rw [if_neg hany] at hp
    rcases List.mem_append.mp hp with hp | hp
    · exact Or.inl hp
    · exact Or.inr (Or.inr (by simpa using hp))

/-- The invariant holds initially. -/
theorem subInv_init : SubInv initState :=
  ⟨List.nodup_nil, fun p hp => absurd hp (List.not_mem_nil p)⟩

/-- The invariant is preserved by every `record_page` attempt. -/
theorem subInv_step (gv : String → String) (sw : List String)
    (s : AnalyticsState) (c : Call) (h : SubInv s) : SubInv (stepState gv sw s c) := by
  unfold stepState
  cases hr : record_page gv sw c.url c.resp s with
  | error e => exact h
  | ok s2 =>
    cases hd : defragment_url c.url with
    | error e =>
      unfold record_page at hr
      rw [hd] at hr
      cases hr
    | ok d =>
      cases hc : c.resp.content with
      | none =>
        rw [record_page_falsy gv sw c.url c.resp s d hd (Or.inl hc)] at hr
        cases hr
        exact h
      | some ctext =>
        by_cases hne : ctext = ""
        · rw [record_page_falsy gv sw c.url c.resp s d hd (Or.inr (hne ▸ hc))] at hr
          cases hr
          exact h
        · by_cases hmem : d ∈ s.unique_pages
          · rw [record_page_dup gv sw c.url c.resp s d hd hmem] at hr
            cases hr
            exact h
          · rw [record_page_fresh gv sw c.url c.resp s d ctext hd hc hne hmem] at hr
            cases hr
            obtain ⟨hkeys, hent⟩ := h
            cases hsd : get_subdomain d with
            | none =>
              refine ⟨by simpa [freshRecord, hsd] using hkeys, ?_⟩
              intro p hp u hu
              have hp2 : p ∈ s.subdomain_pages := by
                simpa [freshRecord, hsd] using hp
              exact ⟨Finset.mem_insert_of_mem (hent p hp2 u hu).1, (hent p hp2 u hu).2⟩
            | some sub =>
              refine ⟨?_, ?_⟩
              · have hnod : ((addSubdomain s.subdomain_pages sub d).map Prod.fst).Nodup := by
                  rcases addSubdomain_keys s.subdomain_pages sub d with hk | ⟨hk, hnotin⟩
                  · rw [hk]
                    exact hkeys
                  · rw [hk, ← List.concat_eq_append]
                    exact List.Nodup.concat hnotin hkeys
                simpa [freshRecord, hsd] using hnod
              · intro p hp u hu
                have hp2 : p ∈ addSubdomain s.subdomain_pages sub d := by
                  simpa [freshRecord, hsd] using hp
                have hgoal : u ∈ insert d s.unique_pages ∧ get_subdomain u = some p.1 := by
                  rcases addSubdomain_entries s.subdomain_pages sub d p hp2 with
                    hold | ⟨hp1, S, hpS, hS⟩ | hfreshp
                  · exact ⟨Finset.mem_insert_of_mem (hent p hold u hu).1, (hent p hold u hu).2⟩
                  · rw [hpS] at hu
                    rcases Finset.mem_insert.mp hu with hud | huS
                    · exact ⟨hud ▸ Finset.mem_insert_self d s.unique_pages,
                        by rw [hud, hsd, hp1]⟩
                    · exact ⟨Finset.mem_insert_of_mem (hent (sub, S) hS u huS).1,
                        by rw [(hent (sub, S) hS u huS).2, hp1]⟩
                  · rw [hfreshp] at hu
                    have hud : u = d := by simpa using hu
                    rw [hfreshp]
                    exact ⟨hud ▸ Finset.mem_insert_self d s.unique_pages, by rw [hud, hsd]⟩
                exact hgoal

/-- The invariant holds in every reachable state. -/
theorem subInv_run (gv : String → String) (sw : List String) (cs : List Call) :
    SubInv (runCalls gv sw cs) := by
  unfold runCalls
  have h : ∀ s, SubInv s → SubInv (cs.foldl (stepState gv sw) s) := by
    induction cs with
    | nil => exact fun s h => h
    | cons c cs ih => exact fun s h => ih (stepState gv sw s c) (subInv_step gv sw s c h)
  exact h initState subInv_init

/-- Disjoint finsets inside a common carrier: the cards sum below the
carrier's card. -/
theorem sum_card_le_card (L : List (Finset String)) (T : Finset String)
    (hsub : ∀ S ∈ L, S ⊆ T) (hd : L.Pairwise Disjoint) :
    (L.map Finset.card).sum ≤ T.card := by
  induction L generalizing T with
  | nil => exact Nat.zero_le T.card
  | cons S L ih =>
    rw [List.map_cons, List.sum_cons]
    have hST : S ⊆ T := hsub S (List.mem_cons_self S L)
    have hL : ∀ S2 ∈ L, S2 ⊆ T \ S := by
      intro S2 hS2
      intro u hu
      refine Finset.mem_sdiff.mpr ⟨hsub S2 (List.mem_cons_of_mem S hS2) hu, ?_⟩
      exact Finset.disjoint_right.mp ((List.pairwise_cons.mp hd).1 S2 hS2) hu
    have hrec := ih (T \ S) hL (List.pairwise_cons.mp hd).2
    rw [Finset.card_sdiff hST] at hrec
    calc S.card + (L.map Finset.card).sum ≤ S.card + (T.card - S.card) :=
          Nat.add_le_add_left hrec S.card
      _ = T.card := Nat.add_sub_cancel' (Finset.card_le_card hST)

/-- Claim C9: in every state reachable by `record` calls from the empty
initial state, the per-host sets are made of `seen` members, no URL sits
under two different hosts, and the host-set sizes sum to at most the size
of `seen`. -/
theorem c9_subdomain_sum (gv : String → String) (sw : List String) (cs : List Call) :
    (((runCalls gv sw cs).subdomain_pages.map (fun p => p.2.card)).sum ≤
      (runCalls gv sw cs).unique_pages.card) ∧
    (∀ p ∈ (runCalls gv sw cs).subdomain_pages, ∀ u ∈ p.2,
      u ∈ (runCalls gv sw cs).unique_pages) ∧
    (∀ p q, p ∈ (runCalls gv sw cs).subdomain_pages →
      q ∈ (runCalls gv sw cs).subdomain_pages →
      ∀ u, u ∈ p.2 → u ∈ q.2 → p.1 = q.1) := by
  obtain ⟨hkeys, hent⟩ := subInv_run gv sw cs
  refine ⟨?_, fun p hp u hu => (hent p hp u hu).1, fun p q hp hq u hup huq => ?_⟩
  · have hmaps : ((runCalls gv sw cs).subdomain_pages.map (fun p => p.2.card)).sum =
        (((runCalls gv sw cs).subdomain_pages.map Prod.snd).map Finset.card).sum := by
      rw [List.map_map]
      rfl
    rw [hmaps]
    refine sum_card_le_card _ _ ?_ ?_
    · intro S hS
      rcases List.mem_map.mp hS with ⟨p, hp, hS2⟩
      exact fun u hu => (hent p hp u (hS2 ▸ hu)).1
    · rw [List.pairwise_map]
      have hne : (runCalls gv sw cs).subdomain_pages.Pairwise (fun p q => p.1 ≠ q.1) := by
        rw [← List.pairwise_map (f := Prod.fst)]
        exact List.Pairwise.imp (fun hxy => hxy) hkeys
      refine hne.imp_of_mem ?_
      intro p q hp hq hpq
      refine Finset.disjoint_left.mpr fun u hup huq => hpq ?_
      have h1 := (hent p hp u hup).2
      have h2 := (hent q hq u huq).2
      rw [h1] at h2
      exact Option.some_injective String h2
  · have h1 := (hent p hp u hup).2
    have h2 := (hent q hq u huq).2
    rw [h1] at h2
    exact Option.some_injective String h2

/-- Witness for claim C9: after one recorded page, the tracked URL really
is a member of `seen`. -/
theorem c9_subdomain_sum_witness :
    "http://www.ics.uci.edu/" ∈
      (runCalls id [] [⟨"http://www.ics.uci.edu/", ⟨200, some "aaaa", ""⟩⟩]).unique_pages :=
  (c9_subdomain_sum id [] [⟨"http://www.ics.uci.edu/", ⟨200, some "aaaa", ""⟩⟩]).2.1
    ("www.ics.uci.edu", {"http://www.ics.uci.edu/"}) (by decide)
    "http://www.ics.uci.edu/" (by decide)

/-! ## Claim C10 -/

/-- Claim C10: for a response with non-falsy content, `record_page`
behaves identically whatever the declared status or Content-Type is (the
non-HTML branch of the source is `pass`, a no-op), and the normalized URL
ends up in `seen`: non-HTML pages are counted and tokenized exactly like
HTML pages. -/
theorem c10_content_type_ignored (gv : String → String) (sw : List String)
    (url : String) (st1 st2 : Nat) (c : String) (ct1 ct2 : String)
    (s : AnalyticsState) (hne : c ≠ "") :
    record_page gv sw url ⟨st1, some c, ct1⟩ s =
      record_page gv sw url ⟨st2, some c, ct2⟩ s ∧
    ∀ d s', defragment_url url = .ok d →
      record_page gv sw url ⟨st1, some c, ct1⟩ s = .ok s' → d ∈ s'.unique_pages := by
  refine ⟨rfl, fun d s' hd h => record_page_mem gv sw url _ s s' d c hd rfl hne h⟩

/-- Witness for claim C10: a `text/csv` response is recorded exactly like
a `text/html` one. -/
theorem c10_content_type_ignored_witness :
    record_page id [] "http://vision.ics.uci.edu/x" ⟨200, some "aaaa", "text/csv"⟩ initState =
      record_page id [] "http://vision.ics.uci.edu/x" ⟨200, some "aaaa", "text/html"⟩ initState ∧
    "http://vision.ics.uci.edu/x" ∈
      (stepState id [] initState
        ⟨"http://vision.ics.uci.edu/x", ⟨200, some "aaaa", "text/csv"⟩⟩).unique_pages := by
  have h := c10_content_type_ignored id [] "http://vision.ics.uci.edu/x" 200 200 "aaaa"
    "text/csv" "text/html" initState (by decide)
  refine ⟨h.1, ?_⟩
  exact h.2 "http://vision.ics.uci.edu/x"
    (stepState id [] initState
      ⟨"http://vision.ics.uci.edu/x", ⟨200, some "aaaa", "text/csv"⟩⟩)
    (by decide) (by decide)

end Crawler
